import Mathlib

/-!
Verification of the reference-counted arena and persistent stack of
`src/prob.rs` (a Rust program).  The Rust code is embedded shallowly:

* `DataType`, `Frame`, `FrameAtor`, `TypeStack` mirror the Rust types.
  `Vec<(Frame, usize)>` becomes `List (Frame × Nat)`; machine indices and
  counts are `Nat` (they stay far below `usize::MAX` here and no wrapping
  arithmetic occurs in these operations).
* The Rust free list is a `Vec` used as a stack (`push` appends at the end,
  `pop` takes from the end).  We model it with the *most recently freed
  index at the head* of a `List Nat`, so Rust `free.push i` is `i :: free`
  and Rust `free.pop()` takes the head.  `free.contains` is order
  independent, so `FrameAtor.dump_dot` is unaffected by this choice.
* Rust operations that can panic (indexing out of bounds in `acquire` and
  `release`, `Option::unwrap` in `pop` and `dump`, and the debug-mode
  underflow check of `-= 1` in `release`) are modelled as `Option`-valued
  functions returning `none` at the panic.
* `release` recurses through back-links; the recursion is justified by the
  total reference count, which strictly decreases at every successful call.
* `TypeStack::dump` prints the tags while walking back-links; here it
  returns the list of tags.  The walk is given `frames.length + 1` fuel;
  on every reachable state the walk stops earlier than that (proved below
  from acyclicity), so the fuel never alters the result.
* `FrameAtor::dump_dot` writes one node line per non-free slot and one edge
  line per back-link of a non-free slot; we model the dump by the data it
  prints: the list of node entries `(index, tag, refcount)` and the list of
  edge entries `(index, previous index)`.
-/

inductive DataType where
  | Int : DataType
  | Ptr : DataType
  | Bool : DataType
deriving DecidableEq

/-- `struct Frame { data_type: DataType, previous: Option<FrameIndex> }`. -/
structure Frame where
  data_type : DataType
  previous : Option Nat
deriving DecidableEq

/-- `struct FrameAtor { frames: Vec<(Frame, usize)>, free: Vec<FrameIndex> }`.
The `free` list keeps the most recently freed index at the head. -/
structure FrameAtor where
  frames : List (Frame × Nat)
  free : List Nat
deriving DecidableEq

namespace FrameAtor

/-- The reference count stored at slot `index` (0 when out of bounds). -/
def cnt (a : FrameAtor) (index : Nat) : Nat :=
  ((a.frames[index]?).map (fun x => x.2)).getD 0

/-- The frame payload stored at slot `index`, if in bounds. -/
def frameAt (a : FrameAtor) (index : Nat) : Option Frame :=
  (a.frames[index]?).map (fun x => x.1)

/-- The back-link of the frame stored at slot `index`, if any. -/
def prevAt (a : FrameAtor) (index : Nat) : Option Nat :=
  (a.frameAt index).bind (fun f => f.previous)

/-- `FrameAtor::alloc`: reuse the most recently freed slot, else append. -/
def alloc (a : FrameAtor) (init : Frame) : FrameAtor × Nat :=
  match a.free with
  | result :: rest => (⟨a.frames.set result (init, 1), rest⟩, result)
  | [] => (⟨a.frames ++ [(init, 1)], []⟩, a.frames.length)

/-- `FrameAtor::acquire`: `self.frames[index].1 += 1`.  Rust indexing
panics when `index` is out of bounds; that is the `none` case. -/
def acquire (a : FrameAtor) (index : Nat) : Option FrameAtor :=
  match a.frames[index]? with
  | some (f, c) => some ⟨a.frames.set index (f, c + 1), a.free⟩
  | none => none

/-- Total reference count; strictly decreases at each `release` call. -/
def sumCounts (a : FrameAtor) : Nat := (a.frames.map (fun x => x.2)).sum

/-- `FrameAtor::release`: decrement the count; when it reaches 0, first
recursively release the back-link (if any), then put `index` on the free
list.  `none` models the two Rust panics: out-of-bounds indexing and the
debug-mode underflow check of `-= 1` when the count is already 0. -/
def release (a : FrameAtor) (index : Nat) : Option FrameAtor :=
  match h : a.frames[index]? with
  | none => none
  | some (f, c) =>
    if hc : c = 0 then none
    else if c - 1 = 0 then
      match f.previous with
      | some prev_index =>
        (release ⟨a.frames.set index (f, c - 1), a.free⟩ prev_index).map
          (fun b => ⟨b.frames, index :: b.free⟩)
      | none => some ⟨a.frames.set index (f, c - 1), index :: a.free⟩
    else
      some ⟨a.frames.set index (f, c - 1), a.free⟩
termination_by sumCounts a
decreasing_by
  show ((a.frames.set index (f, c - 1)).map (fun x => x.2)).sum
    < (a.frames.map (fun x => x.2)).sum
  generalize a.frames = l at h ⊢
  induction l generalizing index with
  | nil => simp at h
  | cons x xs ih =>
    cases index with
    | zero =>
      simp only [List.getElem?_cons_zero, Option.some_inj] at h
      cases h
      simp only [List.set, List.map_cons, List.sum_cons]
      omega
    | succ m =>
      simp only [List.getElem?_cons_succ] at h
      have := ih m h
      simp only [List.set, List.map_cons, List.sum_cons]
      omega

/-- `FrameAtor::deref`: `self.frames.get(index).map(|x| &x.0)`. -/
def deref (a : FrameAtor) (index : Nat) : Option Frame :=
  (a.frames[index]?).map (fun x => x.1)

/-- `FrameAtor::deref_mut`: same lookup as `deref`, returning the mutable
view; the program only ever reads `previous` through it. -/
def deref_mut (a : FrameAtor) (index : Nat) : Option Frame :=
  (a.frames[index]?).map (fun x => x.1)

/-- The node lines of `FrameAtor::dump_dot`: one `(index, tag, refcount)`
entry per slot whose index is not on the free list. -/
def dump_dot_nodes (a : FrameAtor) : List (Nat × DataType × Nat) :=
  a.frames.enum.filterMap (fun p =>
    if a.free.contains p.1 then none else some (p.1, p.2.1.data_type, p.2.2))

/-- The edge lines of `FrameAtor::dump_dot`: one `(index, previous)` entry
per non-free slot with a back-link. -/
def dump_dot_edges (a : FrameAtor) : List (Nat × Nat) :=
  a.frames.enum.filterMap (fun p =>
    if a.free.contains p.1 then none
    else p.2.1.previous.map (fun q => (p.1, q)))

end FrameAtor

/-- `struct TypeStack { top: Option<FrameIndex> }`. -/
structure TypeStack where
  top : Option Nat
deriving DecidableEq

namespace TypeStack

/-- `TypeStack::clone`: acquire the top (if present), return a handle with
the same top.  `none` models the panic of `acquire` on an invalid index. -/
def clone (s : TypeStack) (ator : FrameAtor) : Option (FrameAtor × TypeStack) :=
  match s.top with
  | some top_index => (ator.acquire top_index).map (fun a' => (a', ⟨s.top⟩))
  | none => some (ator, ⟨s.top⟩)

/-- `TypeStack::push`: allocate a frame whose back-link is the current top,
and point the handle at it. -/
def push (s : TypeStack) (ator : FrameAtor) (data_type : DataType) :
    FrameAtor × TypeStack :=
  let p := ator.alloc ⟨data_type, s.top⟩
  (p.1, ⟨some p.2⟩)

/-- `TypeStack::pop`: read the top frame's back-link, acquire it if
present, release the old top, re-point the handle.  `none` models the
panics of `deref_mut(..).unwrap()`, `acquire` and `release`. -/
def pop (s : TypeStack) (ator : FrameAtor) : Option (FrameAtor × TypeStack) :=
  match s.top with
  | none => some (ator, s)
  | some top_index =>
    match ator.deref_mut top_index with
    | none => none
    | some frame =>
      match frame.previous with
      | some prev_index =>
        (ator.acquire prev_index).bind (fun a1 =>
          (a1.release top_index).map (fun a2 => (a2, ⟨some prev_index⟩)))
      | none =>
        (ator.release top_index).map (fun a2 => (a2, ⟨none⟩))

end TypeStack

/-- The back-link walk of `TypeStack::dump`, collecting tags top to bottom.
`fuel` bounds the number of steps; `none` is returned on fuel exhaustion
(impossible from a reachable state) or on the panic of `deref(..).unwrap()`. -/
def dumpF (a : FrameAtor) : Nat → Option Nat → Option (List DataType)
  | _, none => some []
  | 0, some _ => none
  | fuel + 1, some index =>
    (a.deref index).bind (fun frame =>
      (dumpF a fuel frame.previous).map (fun l => frame.data_type :: l))

/-- `TypeStack::dump`: the top-to-bottom tag sequence printed by the walk. -/
def TypeStack.dump (s : TypeStack) (a : FrameAtor) : Option (List DataType) :=
  dumpF a (a.frames.length + 1) s.top

/-- The same walk as `dumpF`, collecting the visited indices instead of the
tags; used to state which slots a stack handle reaches. -/
def chainF (a : FrameAtor) : Nat → Option Nat → Option (List Nat)
  | _, none => some []
  | 0, some _ => none
  | fuel + 1, some index =>
    (a.deref index).bind (fun frame =>
      (chainF a fuel frame.previous).map (fun l => index :: l))

/-- The indices a stack handle reaches by walking back-links from its top. -/
def TypeStack.chain (s : TypeStack) (a : FrameAtor) : Option (List Nat) :=
  chainF a (a.frames.length + 1) s.top

/-- `m` successive pops on one handle. -/
def popSteps : Nat → TypeStack → FrameAtor → Option (FrameAtor × TypeStack)
  | 0, s, a => some (a, s)
  | m + 1, s, a => (s.pop a).bind (fun p => popSteps m p.2 p.1)

/-! ## Configurations and reachable states

A configuration is the shared arena together with the list of live stack
handles, exactly the objects `main`/`generate_tree` keep around.  The public
operations are modelled as steps on configurations: creating a fresh empty
handle (`TypeStack::default`), `push`, `pop` and `clone` on one of the
handles, and the two ways a handle can go away: the disciplined drop the
spec prescribes (release the top, then forget the handle) and the bare drop
Rust performs at scope end (forget the handle, leaking its reference). -/

structure Config where
  ator : FrameAtor
  handles : List TypeStack
deriving DecidableEq

inductive Op where
  | newStack : Op
  | push : Nat → DataType → Op
  | pop : Nat → Op
  | clone : Nat → Op
  | dropRelease : Nat → Op
  | dropLeak : Nat → Op

/-- One public operation on a configuration; `none` when the designated
handle does not exist or the operation panics. -/
def applyOp (c : Config) : Op → Option Config
  | .newStack => some ⟨c.ator, ⟨none⟩ :: c.handles⟩
  | .push k d =>
    (c.handles[k]?).map (fun s =>
      let p := s.push c.ator d
      ⟨p.1, c.handles.set k p.2⟩)
  | .pop k =>
    (c.handles[k]?).bind (fun s =>
      (s.pop c.ator).map (fun p => ⟨p.1, c.handles.set k p.2⟩))
  | .clone k =>
    (c.handles[k]?).bind (fun s =>
      (s.clone c.ator).map (fun p => ⟨p.1, p.2 :: c.handles⟩))
  | .dropRelease k =>
    (c.handles[k]?).bind (fun s =>
      match s.top with
      | some i => (c.ator.release i).map (fun a' => ⟨a', c.handles.eraseIdx k⟩)
      | none => some ⟨c.ator, c.handles.eraseIdx k⟩)
  | .dropLeak k =>
    (c.handles[k]?).map (fun _ => ⟨c.ator, c.handles.eraseIdx k⟩)

/-- States reachable from the empty arena with no handles. -/
inductive Reachable : Config → Prop where
  | init : Reachable ⟨⟨[], []⟩, []⟩
  | step {c c' : Config} (op : Op) : Reachable c → applyOp c op = some c' → Reachable c'

/-- How many of the given handles point at slot `i` as their top. -/
def countTop (hs : List TypeStack) (i : Nat) : Nat :=
  hs.countP (fun s => decide (s.top = some i))

/-- How many slots that are currently in use (non-zero count) hold a
back-link to slot `i`. -/
def parentsLive (a : FrameAtor) (i : Nat) : Nat :=
  ((Finset.range a.frames.length).filter
    (fun j => a.cnt j ≠ 0 ∧ a.prevAt j = some i)).card

/-- The arena invariant, stated against an abstract census `h` of direct
holders (handles or transient borrowings inside `pop`) of each slot:

* free-list indices are in bounds, distinct, and their slots hold count 0;
* every holder census entry is in bounds;
* the stored count of every slot dominates its holders plus the in-use
  slots back-linking to it (an inequality, because dropping a handle
  without a release legitimately leaks counts);
* in-use slots carry a depth: a slot with no back-link has depth 0 and a
  back-link goes to an in-bounds, in-use slot of depth one less. -/
structure ArenaInv (a : FrameAtor) (h : Nat → Nat) : Prop where
  free_lt : ∀ i ∈ a.free, i < a.frames.length
  free_nodup : a.free.Nodup
  free_cnt : ∀ i ∈ a.free, a.cnt i = 0
  holders_lt : ∀ i, h i ≠ 0 → i < a.frames.length
  count_le : ∀ i, i < a.frames.length → h i + parentsLive a i ≤ a.cnt i
  depth : ∃ rk : Nat → Nat, ∀ j, j < a.frames.length → a.cnt j ≠ 0 →
    (a.prevAt j = none → rk j = 0) ∧
    (∀ p, a.prevAt j = some p →
      p < a.frames.length ∧ a.cnt p ≠ 0 ∧ rk j = rk p + 1)

/-- The full state invariant: the arena invariant for the census given by
the live handles, together with the converse free-list direction — every
in-bounds slot of count 0 is on the free list. -/
def WF (c : Config) : Prop :=
  ArenaInv c.ator (countTop c.handles) ∧
  ∀ i, i < c.ator.frames.length → c.ator.cnt i = 0 → i ∈ c.ator.free

/-! ## Basic facts about slots, counts and the census -/

namespace FrameAtor

theorem sum_map_set_lt (l : List (Frame × Nat)) (n : Nat) (f : Frame) (c : Nat)
    (h : l[n]? = some (f, c)) (hc : c ≠ 0) :
    ((l.set n (f, c - 1)).map (fun x => x.2)).sum < (l.map (fun x => x.2)).sum := by
  induction l generalizing n with
  | nil => simp at h
  | cons x xs ih =>
    cases n with
    | zero =>
      simp only [List.getElem?_cons_zero, Option.some_inj] at h
      cases h
      simp only [List.set, List.map_cons, List.sum_cons]
      omega
    | succ m =>
      simp only [List.getElem?_cons_succ] at h
      have := ih m h
      simp only [List.set, List.map_cons, List.sum_cons]
      omega

theorem cnt_eq_of_getElem {a : FrameAtor} {i : Nat} {f : Frame} {c : Nat}
    (h : a.frames[i]? = some (f, c)) : a.cnt i = c := by
  simp [cnt, h]

theorem cnt_oob {a : FrameAtor} {i : Nat} (h : a.frames.length ≤ i) :
    a.cnt i = 0 := by
  simp [cnt, List.getElem?_eq_none h]

theorem exists_getElem_of_lt {a : FrameAtor} {i : Nat} (h : i < a.frames.length) :
    ∃ f c, a.frames[i]? = some (f, c) ∧ a.cnt i = c ∧ a.frameAt i = some f := by
  rcases hx : a.frames[i]? with _ | ⟨f, c⟩
  · exact absurd (List.getElem?_eq_none_iff.mp hx) (by omega)
  · exact ⟨f, c, rfl, by simp [cnt, hx], by simp [frameAt, hx]⟩

theorem lt_of_cnt_ne_zero {a : FrameAtor} {i : Nat} (h : a.cnt i ≠ 0) :
    i < a.frames.length := by
  by_contra hn
  exact h (cnt_oob (by omega))

theorem prevAt_eq_of_getElem {a : FrameAtor} {i : Nat} {f : Frame} {c : Nat}
    (h : a.frames[i]? = some (f, c)) : a.prevAt i = f.previous := by
  simp [prevAt, frameAt, h]

theorem cnt_of_frames_set_self {a b : FrameAtor} {t : Nat} {f : Frame} {c' : Nat}
    (hb : b.frames = a.frames.set t (f, c')) (ht : t < a.frames.length) :
    b.cnt t = c' := by
  simp [cnt, hb, List.getElem?_set_self ht]

theorem cnt_of_frames_set_ne {a b : FrameAtor} {t i : Nat} {x : Frame × Nat}
    (hb : b.frames = a.frames.set t x) (h : t ≠ i) : b.cnt i = a.cnt i := by
  simp [cnt, hb, List.getElem?_set_ne h]

theorem frameAt_of_frames_set_self {a b : FrameAtor} {t : Nat} {f : Frame} {c' : Nat}
    (hb : b.frames = a.frames.set t (f, c')) (ht : t < a.frames.length) :
    b.frameAt t = some f := by
  simp [frameAt, hb, List.getElem?_set_self ht]

theorem frameAt_of_frames_set_ne {a b : FrameAtor} {t i : Nat} {x : Frame × Nat}
    (hb : b.frames = a.frames.set t x) (h : t ≠ i) : b.frameAt i = a.frameAt i := by
  simp [frameAt, hb, List.getElem?_set_ne h]

theorem frameAt_of_frames_set_same {a b : FrameAtor} {t : Nat} {f : Frame} {c c' : Nat}
    (hget : a.frames[t]? = some (f, c))
    (hb : b.frames = a.frames.set t (f, c')) :
    ∀ i, b.frameAt i = a.frameAt i := by
  intro i
  rcases eq_or_ne t i with rfl | hne
  · rw [frameAt_of_frames_set_self hb
      (List.getElem?_eq_some.mp hget).1]
    simp [frameAt, hget]
  · exact frameAt_of_frames_set_ne hb hne

theorem prevAt_congr {a b : FrameAtor} (h : ∀ i, b.frameAt i = a.frameAt i) :
    ∀ i, b.prevAt i = a.prevAt i := by
  intro i; simp [prevAt, h i]

theorem cnt_le_sumCounts (a : FrameAtor) (i : Nat) : a.cnt i ≤ sumCounts a := by
  rcases Nat.lt_or_ge i a.frames.length with hi | hi
  · obtain ⟨f, c, hget, hcnt, -⟩ := exists_getElem_of_lt hi
    rw [hcnt]
    have hmem : (f, c) ∈ a.frames := by
      have := List.getElem?_eq_some.mp hget
      rcases this with ⟨h1, h2⟩
      exact h2 ▸ List.getElem_mem h1
    exact List.single_le_sum (by simp) _ (List.mem_map_of_mem (fun x => x.2) hmem)
  · rw [cnt_oob hi]; exact Nat.zero_le _

end FrameAtor

open FrameAtor

theorem parentsLive_congr_frames {a b : FrameAtor} (h : b.frames = a.frames) :
    ∀ i, parentsLive b i = parentsLive a i := by
  rcases a with ⟨af, afr⟩
  rcases b with ⟨bf, bfr⟩
  simp only at h
  subst h
  intro i; rfl

theorem parentsLive_congr {a b : FrameAtor}
    (hlen : b.frames.length = a.frames.length)
    (hlive : ∀ j, j < a.frames.length → (b.cnt j ≠ 0 ↔ a.cnt j ≠ 0))
    (hprev : ∀ j, j < a.frames.length → a.cnt j ≠ 0 → b.prevAt j = a.prevAt j) :
    ∀ i, parentsLive b i = parentsLive a i := by
  intro i
  unfold parentsLive
  rw [hlen]
  congr 1
  apply Finset.filter_congr
  intro j hj
  rw [Finset.mem_range] at hj
  constructor
  · rintro ⟨h1, h2⟩
    have h1' := (hlive j hj).mp h1
    exact ⟨h1', by rw [← hprev j hj h1', h2]⟩
  · rintro ⟨h1, h2⟩
    exact ⟨(hlive j hj).mpr h1, by rw [hprev j hj h1, h2]⟩

theorem parentsLive_pos {a : FrameAtor} {j i : Nat} (hj : j < a.frames.length)
    (hc : a.cnt j ≠ 0) (hp : a.prevAt j = some i) : 0 < parentsLive a i := by
  apply Finset.card_pos.mpr
  exact ⟨j, Finset.mem_filter.mpr ⟨Finset.mem_range.mpr hj, hc, hp⟩⟩

theorem parentsLive_kill_none {a b : FrameAtor} {t : Nat} {f : Frame} {c : Nat}
    (hget : a.frames[t]? = some (f, c)) (hprev : f.previous = none)
    (hb : b.frames = a.frames.set t (f, 0)) :
    ∀ i, parentsLive b i = parentsLive a i := by
  have ht : t < a.frames.length := (List.getElem?_eq_some.mp hget).1
  have hfa := frameAt_of_frames_set_same hget hb
  intro i
  unfold parentsLive
  rw [hb, List.length_set]
  congr 1
  apply Finset.filter_congr
  intro j hj
  rw [Finset.mem_range] at hj
  have hpj : b.prevAt j = a.prevAt j := prevAt_congr hfa j
  rcases eq_or_ne t j with rfl | hne
  · have h1 : b.cnt t = 0 := cnt_of_frames_set_self hb ht
    have h2 : a.prevAt t = none := by rw [prevAt_eq_of_getElem hget, hprev]
    simp [h1, h2]
  · have h1 : b.cnt j = a.cnt j := cnt_of_frames_set_ne hb hne
    simp [h1, hpj]

theorem parentsLive_kill_some {a b : FrameAtor} {t : Nat} {f : Frame} {c : Nat} {p : Nat}
    (hget : a.frames[t]? = some (f, c)) (hc : c ≠ 0) (hprev : f.previous = some p)
    (hb : b.frames = a.frames.set t (f, 0)) :
    parentsLive b p + 1 = parentsLive a p ∧
    ∀ i, i ≠ p → parentsLive b i = parentsLive a i := by
  have ht : t < a.frames.length := (List.getElem?_eq_some.mp hget).1
  have hfa := frameAt_of_frames_set_same hget hb
  have hlen : b.frames.length = a.frames.length := by rw [hb, List.length_set]
  have hcb_t : b.cnt t = 0 := cnt_of_frames_set_self hb ht
  have hca_t : a.cnt t = c := cnt_eq_of_getElem hget
  have hpa_t : a.prevAt t = some p := by rw [prevAt_eq_of_getElem hget, hprev]
  have hpb : ∀ j, b.prevAt j = a.prevAt j := prevAt_congr hfa
  have hcb_ne : ∀ j, j ≠ t → b.cnt j = a.cnt j := by
    intro j hj; exact cnt_of_frames_set_ne hb (Ne.symm hj)
  constructor
  · have hfilter :
        (Finset.range b.frames.length).filter
          (fun j => b.cnt j ≠ 0 ∧ b.prevAt j = some p) =
        ((Finset.range a.frames.length).filter
          (fun j => a.cnt j ≠ 0 ∧ a.prevAt j = some p)).erase t := by
      ext j
      rw [Finset.mem_erase, Finset.mem_filter, Finset.mem_filter, Finset.mem_range,
        Finset.mem_range, hlen]
      constructor
      · rintro ⟨hj, h1, h2⟩
        have hjt : j ≠ t := by rintro rfl; exact h1 hcb_t
        exact ⟨hjt, hj, by rw [← hcb_ne j hjt]; exact h1, by rw [← hpb j]; exact h2⟩
      · rintro ⟨hjt, hj, h1, h2⟩
        exact ⟨hj, by rw [hcb_ne j hjt]; exact h1, by rw [hpb j]; exact h2⟩
    have hmem : t ∈ (Finset.range a.frames.length).filter
        (fun j => a.cnt j ≠ 0 ∧ a.prevAt j = some p) :=
      Finset.mem_filter.mpr ⟨Finset.mem_range.mpr ht, by rw [hca_t]; exact hc, hpa_t⟩
    unfold parentsLive
    rw [hfilter, Finset.card_erase_of_mem hmem]
    have : 0 < ((Finset.range a.frames.length).filter
        (fun j => a.cnt j ≠ 0 ∧ a.prevAt j = some p)).card :=
      Finset.card_pos.mpr ⟨t, hmem⟩
    omega
  · intro i hip
    unfold parentsLive
    rw [hlen]
    congr 1
    apply Finset.filter_congr
    intro j hj
    rw [Finset.mem_range] at hj
    rcases eq_or_ne j t with rfl | hjt
    · simp [hcb_t, hpa_t, Ne.symm hip]
    · simp [hcb_ne j hjt, hpb j]

theorem parentsLive_alloc_append {a b : FrameAtor} {f : Frame}
    (hb : b.frames = a.frames ++ [(f, 1)]) :
    ∀ i, parentsLive b i =
      parentsLive a i + (if f.previous = some i then 1 else 0) := by
  have hlen : b.frames.length = a.frames.length + 1 := by
    rw [hb, List.length_append, List.length_singleton]
  have hcb_new : b.cnt a.frames.length = 1 := by
    simp [cnt, hb, List.getElem?_concat_length]
  have hpb_new : b.prevAt a.frames.length = f.previous := by
    simp [prevAt, frameAt, hb, List.getElem?_concat_length]
  have hold : ∀ j, j < a.frames.length →
      b.cnt j = a.cnt j ∧ b.prevAt j = a.prevAt j := by
    intro j hj
    constructor
    · simp [cnt, hb, List.getElem?_append_left hj]
    · simp [prevAt, frameAt, hb, List.getElem?_append_left hj]
  intro i
  unfold parentsLive
  rw [hlen, Finset.range_succ, Finset.filter_insert]
  have hrest :
      (Finset.range a.frames.length).filter
        (fun j => b.cnt j ≠ 0 ∧ b.prevAt j = some i) =
      (Finset.range a.frames.length).filter
        (fun j => a.cnt j ≠ 0 ∧ a.prevAt j = some i) := by
    apply Finset.filter_congr
    intro j hj
    rw [Finset.mem_range] at hj
    rw [(hold j hj).1, (hold j hj).2]
  split
  · rename_i hcond
    rw [Finset.card_insert_of_not_mem (by simp), hrest]
    have : f.previous = some i := by
      rcases hcond with ⟨-, h2⟩
      rw [hpb_new] at h2; exact h2
    simp [this]
  · rename_i hcond
    rw [hrest]
    have : ¬ f.previous = some i := by
      intro hcontra
      exact hcond ⟨by rw [hcb_new]; exact one_ne_zero, by rw [hpb_new]; exact hcontra⟩
    simp [this]

theorem parentsLive_alloc_reuse {a b : FrameAtor} {t : Nat} {g f : Frame}
    (hget : a.frames[t]? = some (g, 0))
    (hb : b.frames = a.frames.set t (f, 1)) :
    ∀ i, parentsLive b i =
      parentsLive a i + (if f.previous = some i then 1 else 0) := by
  have ht : t < a.frames.length := (List.getElem?_eq_some.mp hget).1
  have hlen : b.frames.length = a.frames.length := by rw [hb, List.length_set]
  have hca_t : a.cnt t = 0 := cnt_eq_of_getElem hget
  have hcb_t : b.cnt t = 1 := cnt_of_frames_set_self hb ht
  have hpb_t : b.prevAt t = f.previous := by
    have := frameAt_of_frames_set_self hb ht
    simp [prevAt, this]
  have hne : ∀ j, j ≠ t → b.cnt j = a.cnt j ∧ b.prevAt j = a.prevAt j := by
    intro j hj
    refine ⟨cnt_of_frames_set_ne hb (Ne.symm hj), ?_⟩
    have := frameAt_of_frames_set_ne hb (Ne.symm hj)
    simp [prevAt, this]
  intro i
  unfold parentsLive
  rw [hlen]
  by_cases hpi : f.previous = some i
  · have hfilter :
        (Finset.range a.frames.length).filter
          (fun j => b.cnt j ≠ 0 ∧ b.prevAt j = some i) =
        insert t ((Finset.range a.frames.length).filter
          (fun j => a.cnt j ≠ 0 ∧ a.prevAt j = some i)) := by
      ext j
      simp only [Finset.mem_insert, Finset.mem_filter, Finset.mem_range]
      constructor
      · rintro ⟨hj, h1, h2⟩
        rcases eq_or_ne j t with rfl | hjt
        · exact Or.inl rfl
        · exact Or.inr ⟨hj,
            by rw [← (hne j hjt).1]; exact h1, by rw [← (hne j hjt).2]; exact h2⟩
      · rintro (rfl | ⟨hj, h1, h2⟩)
        · exact ⟨ht, by rw [hcb_t]; exact one_ne_zero, by rw [hpb_t]; exact hpi⟩
        · have hjt : j ≠ t := by rintro rfl; exact h1 hca_t
          exact ⟨hj, by rw [(hne j hjt).1]; exact h1, by rw [(hne j hjt).2]; exact h2⟩
    rw [hfilter, Finset.card_insert_of_not_mem (by
      rw [Finset.mem_filter]
      rintro ⟨-, h1, -⟩
      exact h1 hca_t)]
    simp [hpi]
  · have hfilter :
        (Finset.range a.frames.length).filter
          (fun j => b.cnt j ≠ 0 ∧ b.prevAt j = some i) =
        (Finset.range a.frames.length).filter
          (fun j => a.cnt j ≠ 0 ∧ a.prevAt j = some i) := by
      apply Finset.filter_congr
      intro j hj
      rcases eq_or_ne j t with rfl | hjt
      · simp [hcb_t, hpb_t, hca_t, hpi]
      · rw [(hne j hjt).1, (hne j hjt).2]
    rw [hfilter]
    simp [hpi]

theorem countTop_cons (s : TypeStack) (hs : List TypeStack) (i : Nat) :
    countTop (s :: hs) i = countTop hs i + (if s.top = some i then 1 else 0) := by
  simp [countTop, List.countP_cons]

theorem countP_getElem_le {α : Type} (p : α → Bool) (l : List α) {k : Nat} {s : α}
    (h : l[k]? = some s) (hp : p s) : 1 ≤ l.countP p := by
  have : 0 < l.countP p := by
    rw [List.countP_pos_iff]
    obtain ⟨hk, hsk⟩ := List.getElem?_eq_some.mp h
    exact ⟨s, hsk ▸ List.getElem_mem hk, hp⟩
  omega

theorem countTop_set {hs : List TypeStack} {k : Nat} {s : TypeStack}
    (h : hs[k]? = some s) (x : TypeStack) (i : Nat) :
    countTop (hs.set k x) i + (if s.top = some i then 1 else 0) =
      countTop hs i + (if x.top = some i then 1 else 0) := by
  obtain ⟨hk, hsk⟩ := List.getElem?_eq_some.mp h
  unfold countTop
  rw [List.countP_set _ _ _ _ hk, hsk]
  by_cases hsi : s.top = some i
  · have h1 : 1 ≤ hs.countP (fun s => decide (s.top = some i)) :=
      countP_getElem_le _ _ h (by simp [hsi])
    simp [hsi]
    omega
  · simp [hsi]

theorem countTop_eraseIdx {hs : List TypeStack} {k : Nat} {s : TypeStack}
    (h : hs[k]? = some s) (i : Nat) :
    countTop (hs.eraseIdx k) i + (if s.top = some i then 1 else 0) =
      countTop hs i := by
  unfold countTop
  induction hs generalizing k with
  | nil => simp at h
  | cons x xs ih =>
    cases k with
    | zero =>
      simp only [List.getElem?_cons_zero, Option.some_inj] at h
      subst h
      simp [List.eraseIdx, List.countP_cons]
    | succ m =>
      simp only [List.getElem?_cons_succ] at h
      simp only [List.eraseIdx, List.countP_cons]
      have := ih h
      omega

theorem countTop_eraseIdx_le (hs : List TypeStack) (k : Nat) (i : Nat) :
    countTop (hs.eraseIdx k) i ≤ countTop hs i :=
  List.Sublist.countP_le _ (List.eraseIdx_sublist hs k)

/-- Transfer an `ArenaInv` along a pointwise-equal census. -/
theorem ArenaInv.congr_census {a : FrameAtor} {h h' : Nat → Nat}
    (inv : ArenaInv a h) (hh : ∀ i, h' i = h i) : ArenaInv a h' where
  free_lt := inv.free_lt
  free_nodup := inv.free_nodup
  free_cnt := inv.free_cnt
  holders_lt := fun i hi => inv.holders_lt i (by rw [← hh i]; exact hi)
  count_le := fun i hi => by rw [hh i]; exact inv.count_le i hi
  depth := inv.depth

/-- A slot some handle points at is in bounds and in use. -/
theorem ArenaInv.holder_live {a : FrameAtor} {h : Nat → Nat}
    (inv : ArenaInv a h) {t : Nat} (ht : h t ≠ 0) :
    t < a.frames.length ∧ a.cnt t ≠ 0 := by
  have hlt := inv.holders_lt t ht
  refine ⟨hlt, ?_⟩
  have := inv.count_le t hlt
  omega

/-- A slot in use is never on the free list. -/
theorem ArenaInv.not_free_of_cnt {a : FrameAtor} {h : Nat → Nat}
    (inv : ArenaInv a h) {t : Nat} (hc : a.cnt t ≠ 0) : t ∉ a.free := by
  intro hmem
  exact hc (inv.free_cnt t hmem)

/-! ## The four branches of `release`, as equations -/

namespace FrameAtor

theorem release_oob {a : FrameAtor} {t : Nat} (hget : a.frames[t]? = none) :
    a.release t = none := by
  rw [FrameAtor.release.eq_def, hget]

theorem release_underflow {a : FrameAtor} {t : Nat} {f : Frame}
    (hget : a.frames[t]? = some (f, 0)) : a.release t = none := by
  rw [FrameAtor.release.eq_def, hget]; simp

theorem release_dec {a : FrameAtor} {t : Nat} {f : Frame} {c : Nat}
    (hget : a.frames[t]? = some (f, c)) (hc : c ≠ 0) (hc1 : c - 1 ≠ 0) :
    a.release t = some ⟨a.frames.set t (f, c - 1), a.free⟩ := by
  rw [FrameAtor.release.eq_def, hget]
  simp only [dif_neg hc, if_neg hc1]

theorem release_zero_none {a : FrameAtor} {t : Nat} {f : Frame} {c : Nat}
    (hget : a.frames[t]? = some (f, c)) (hc : c ≠ 0) (hc1 : c - 1 = 0)
    (hp : f.previous = none) :
    a.release t = some ⟨a.frames.set t (f, c - 1), t :: a.free⟩ := by
  rw [FrameAtor.release.eq_def, hget]
  simp only [dif_neg hc, if_pos hc1, hp]

theorem release_zero_some {a : FrameAtor} {t : Nat} {f : Frame} {c p : Nat}
    (hget : a.frames[t]? = some (f, c)) (hc : c ≠ 0) (hc1 : c - 1 = 0)
    (hp : f.previous = some p) :
    a.release t = (FrameAtor.release ⟨a.frames.set t (f, c - 1), a.free⟩ p).map
      (fun b => ⟨b.frames, t :: b.free⟩) := by
  rw [FrameAtor.release.eq_def, hget]
  simp only [dif_neg hc, if_pos hc1, hp]

end FrameAtor

/-! ## Specification of the release cascade

`release_spec` says: in a state satisfying the arena invariant for a census
`h`, releasing a slot with a positive census succeeds (no panic), yields a
state satisfying the invariant for the census minus that one holder, leaves
every payload and the table length unchanged, only ever lowers counts, only
ever grows the free list with previously in-use slots, and leaves no slot
of count 0 off the free list that was not already off it before. -/
theorem release_spec (N : Nat) :
    ∀ (a : FrameAtor) (h : Nat → Nat) (t : Nat),
      FrameAtor.sumCounts a ≤ N → ArenaInv a h → h t ≠ 0 →
      ∃ b, a.release t = some b ∧
        ArenaInv b (fun i => if i = t then h i - 1 else h i) ∧
        b.frames.length = a.frames.length ∧
        (∀ i, b.frameAt i = a.frameAt i) ∧
        (∀ i, b.cnt i ≤ a.cnt i) ∧
        (∀ i, i ∈ a.free → i ∈ b.free) ∧
        (∀ i, i ∈ b.free → i ∈ a.free ∨ a.cnt i ≠ 0) ∧
        (∀ i, i < a.frames.length → b.cnt i = 0 →
          i ∈ b.free ∨ (a.cnt i = 0 ∧ i ∉ a.free)) := by
  induction N with
  | zero =>
    intro a h t hN inv ht
    obtain ⟨htn, hcnt⟩ := inv.holder_live ht
    have := FrameAtor.cnt_le_sumCounts a t
    omega
  | succ N ih =>
    intro a h t hN inv ht
    obtain ⟨htn, hcnt0⟩ := inv.holder_live ht
    obtain ⟨f, c, hget, hcntc, hfat⟩ := FrameAtor.exists_getElem_of_lt htn
    have hc : c ≠ 0 := hcntc ▸ hcnt0
    have hle := inv.count_le t htn
    rw [hcntc] at hle
    have hht : 1 ≤ h t := Nat.one_le_iff_ne_zero.mpr ht
    have tfree_not : t ∉ a.free := inv.not_free_of_cnt hcnt0
    by_cases hc1 : c - 1 = 0
    · -- the count reaches 0: h t = 1 and the slot has no in-use parents
      have hht1 : h t = 1 := by omega
      have hparents_t : parentsLive a t = 0 := by omega
      rcases hp : f.previous with _ | p
      · -- no back-link: just put t on the free list
        refine ⟨⟨a.frames.set t (f, c - 1), t :: a.free⟩,
          FrameAtor.release_zero_none hget hc hc1 hp, ?_⟩
        have hbf : (⟨a.frames.set t (f, c - 1), t :: a.free⟩ : FrameAtor).frames
            = a.frames.set t (f, c - 1) := rfl
        have hbf0 : (⟨a.frames.set t (f, c - 1), t :: a.free⟩ : FrameAtor).frames
            = a.frames.set t (f, 0) := by rw [hbf, hc1]
        have hlen : (⟨a.frames.set t (f, c - 1), t :: a.free⟩ : FrameAtor).frames.length
            = a.frames.length := by rw [hbf, List.length_set]
        have hfa := FrameAtor.frameAt_of_frames_set_same hget hbf
        have hcnt_t : (⟨a.frames.set t (f, c - 1), t :: a.free⟩ : FrameAtor).cnt t = 0 := by
          rw [FrameAtor.cnt_of_frames_set_self hbf htn, hc1]
        have hcnt_ne : ∀ i, i ≠ t →
            (⟨a.frames.set t (f, c - 1), t :: a.free⟩ : FrameAtor).cnt i = a.cnt i :=
          fun i hi => FrameAtor.cnt_of_frames_set_ne hbf (Ne.symm hi)
        have hparents := parentsLive_kill_none hget hp hbf0
        have hpa := FrameAtor.prevAt_congr hfa
        refine ⟨⟨?_, ?_, ?_, ?_, ?_, ?_⟩, hlen, hfa, ?_, ?_, ?_, ?_⟩
        · intro i hi
          rcases List.mem_cons.mp hi with rfl | hi'
          · rw [hlen]; exact htn
          · rw [hlen]; exact inv.free_lt i hi'
        · exact List.Nodup.cons tfree_not inv.free_nodup
        · intro i hi
          rcases List.mem_cons.mp hi with rfl | hi'
          · exact hcnt_t
          · have : i ≠ t := by rintro rfl; exact tfree_not hi'
            rw [hcnt_ne i this]; exact inv.free_cnt i hi'
        · intro i hi
          rw [hlen]
          apply inv.holders_lt
          by_cases hit : i = t
          · subst hit; simp at hi; omega
          · simp [hit] at hi; exact hi
        · intro i hi
          rw [hlen] at hi
          by_cases hit : i = t
          · subst hit
            rw [hcnt_t, hparents i, hparents_t, hht1]
            simp
          · rw [hcnt_ne i hit, hparents i]
            simp only [if_neg hit]
            exact inv.count_le i hi
        · obtain ⟨rk, hrk⟩ := inv.depth
          refine ⟨rk, ?_⟩
          intro j hj hcj
          rw [hlen] at hj
          have hjt : j ≠ t := by rintro rfl; exact hcj hcnt_t
          rw [hcnt_ne j hjt] at hcj
          have := hrk j hj hcj
          rw [hpa j]
          refine ⟨this.1, ?_⟩
          intro q hq
          obtain ⟨h1, h2, h3⟩ := this.2 q hq
          have hqt : q ≠ t := by
            rintro rfl
            have := parentsLive_pos hj hcj hq
            omega
          exact ⟨by rw [hlen]; exact h1, by rw [hcnt_ne q hqt]; exact h2, h3⟩
        · intro i
          by_cases hit : i = t
          · subst hit; rw [hcnt_t]; exact Nat.zero_le _
          · rw [hcnt_ne i hit]
        · intro i hi; exact List.mem_cons_of_mem t hi
        · intro i hi
          rcases List.mem_cons.mp hi with rfl | hi'
          · exact Or.inr hcnt0
          · exact Or.inl hi'
        · intro i hi hci
          by_cases hit : i = t
          · subst hit; exact Or.inl (List.mem_cons_self _ _)
          · rw [hcnt_ne i hit] at hci
            by_cases hmem : i ∈ a.free
            · exact Or.inl (List.mem_cons_of_mem t hmem)
            · exact Or.inr ⟨hci, hmem⟩
      · -- back-link: recursively release p, then put t on the free list
        have hpat : a.prevAt t = some p := by
          rw [FrameAtor.prevAt_eq_of_getElem hget, hp]
        obtain ⟨rk, hrk⟩ := inv.depth
        obtain ⟨hpn, hcp, -⟩ := (hrk t htn hcnt0).2 p hpat
        have hpt : p ≠ t := by
          rintro rfl
          have := parentsLive_pos htn hcnt0 hpat
          omega
        -- the intermediate state with t's count at 0
        have hbf : (⟨a.frames.set t (f, c - 1), a.free⟩ : FrameAtor).frames
            = a.frames.set t (f, c - 1) := rfl
        have hbf0 : (⟨a.frames.set t (f, c - 1), a.free⟩ : FrameAtor).frames
            = a.frames.set t (f, 0) := by rw [hbf, hc1]
        have hlen1 : (⟨a.frames.set t (f, c - 1), a.free⟩ : FrameAtor).frames.length
            = a.frames.length := by rw [hbf, List.length_set]
        have hfa1 := FrameAtor.frameAt_of_frames_set_same hget hbf
        have hcnt1_t : (⟨a.frames.set t (f, c - 1), a.free⟩ : FrameAtor).cnt t = 0 := by
          rw [FrameAtor.cnt_of_frames_set_self hbf htn, hc1]
        have hcnt1_ne : ∀ i, i ≠ t →
            (⟨a.frames.set t (f, c - 1), a.free⟩ : FrameAtor).cnt i = a.cnt i :=
          fun i hi => FrameAtor.cnt_of_frames_set_ne hbf (Ne.symm hi)
        have hpa1 := FrameAtor.prevAt_congr hfa1
        obtain ⟨hkill1, hkill2⟩ := parentsLive_kill_some hget hc hp hbf0
        have hinv1 : ArenaInv ⟨a.frames.set t (f, c - 1), a.free⟩
            (fun i => if i = p then h i + 1 else if i = t then 0 else h i) := by
          refine ⟨?_, inv.free_nodup, ?_, ?_, ?_, ?_⟩
          · intro i hi; rw [hlen1]; exact inv.free_lt i hi
          · intro i hi
            have : i ≠ t := by rintro rfl; exact tfree_not hi
            rw [hcnt1_ne i this]; exact inv.free_cnt i hi
          · intro i hi
            rw [hlen1]
            by_cases hip : i = p
            · subst hip; exact hpn
            · by_cases hit : i = t
              · subst hit; simp [Ne.symm hpt] at hi
              · apply inv.holders_lt; simpa [hip, hit] using hi
          · intro i hi
            rw [hlen1] at hi
            by_cases hip : i = p
            · subst hip
              rw [hcnt1_ne i hpt]
              have := inv.count_le i hi
              simp
              omega
            · by_cases hit : i = t
              · subst hit
                rw [hcnt1_t, hkill2 i (Ne.symm hpt), hparents_t]
                simp [Ne.symm hpt]
              · rw [hcnt1_ne i hit, hkill2 i hip]
                simp only [if_neg hip, if_neg hit]
                exact inv.count_le i hi
          · refine ⟨rk, ?_⟩
            intro j hj hcj
            rw [hlen1] at hj
            have hjt : j ≠ t := by rintro rfl; exact hcj hcnt1_t
            rw [hcnt1_ne j hjt] at hcj
            have := hrk j hj hcj
            rw [hpa1 j]
            refine ⟨this.1, ?_⟩
            intro q hq
            obtain ⟨h1, h2, h3⟩ := this.2 q hq
            have hqt : q ≠ t := by
              rintro rfl
              have := parentsLive_pos hj hcj hq
              omega
            exact ⟨by rw [hlen1]; exact h1, by rw [hcnt1_ne q hqt]; exact h2, h3⟩
        have hsum : FrameAtor.sumCounts ⟨a.frames.set t (f, c - 1), a.free⟩ ≤ N := by
          have := FrameAtor.sum_map_set_lt a.frames t f c hget hc
          unfold FrameAtor.sumCounts at hN ⊢
          simp only at this ⊢
          omega
        obtain ⟨b0, hrel0, hinv0, hlen0, hfa0, hmono0, hsub0, hrev0, hP0⟩ :=
          ih ⟨a.frames.set t (f, c - 1), a.free⟩
            (fun i => if i = p then h i + 1 else if i = t then 0 else h i) p
            hsum hinv1 (by simp)
        have htnot0 : t ∉ b0.free := by
          intro hmem
          rcases hrev0 t hmem with h1 | h2
          · exact tfree_not h1
          · exact h2 hcnt1_t
        have hinv0' : ArenaInv b0 (fun i => if i = t then h i - 1 else h i) := by
          apply hinv0.congr_census
          intro i
          by_cases hip : i = p
          · subst hip; simp [hpt]
          · by_cases hit : i = t
            · subst hit
              simp [hip]
              omega
            · simp [hip, hit]
        refine ⟨⟨b0.frames, t :: b0.free⟩,
          by rw [FrameAtor.release_zero_some hget hc hc1 hp, hrel0]; rfl,
          ?_, ?_, ?_, ?_, ?_, ?_, ?_⟩
        · refine ⟨?_, ?_, ?_, ?_, ?_, ?_⟩
          · intro i hi
            rcases List.mem_cons.mp hi with rfl | hi'
            · show i < b0.frames.length
              rw [hlen0, hlen1]; exact htn
            · exact hinv0'.free_lt i hi'
          · exact List.Nodup.cons htnot0 hinv0'.free_nodup
          · intro i hi
            rcases List.mem_cons.mp hi with rfl | hi'
            · show b0.cnt i = 0
              have := hmono0 i
              rw [hcnt1_t] at this
              omega
            · exact hinv0'.free_cnt i hi'
          · exact hinv0'.holders_lt
          · exact hinv0'.count_le
          · exact hinv0'.depth
        · show b0.frames.length = a.frames.length
          rw [hlen0, hlen1]
        · intro i
          show b0.frameAt i = a.frameAt i
          rw [hfa0 i, hfa1 i]
        · intro i
          show b0.cnt i ≤ a.cnt i
          calc b0.cnt i ≤ _ := hmono0 i
            _ ≤ a.cnt i := by
              by_cases hit : i = t
              · subst hit; rw [hcnt1_t]; exact Nat.zero_le _
              · rw [hcnt1_ne i hit]
        · intro i hi
          exact List.mem_cons_of_mem t (hsub0 i hi)
        · intro i hi
          rcases List.mem_cons.mp hi with rfl | hi'
          · exact Or.inr hcnt0
          · rcases hrev0 i hi' with h1 | h2
            · exact Or.inl h1
            · right
              have hit : i ≠ t := by rintro rfl; exact h2 hcnt1_t
              rw [hcnt1_ne i hit] at h2
              exact h2
        · intro i hi hci
          by_cases hit : i = t
          · subst hit; exact Or.inl (List.mem_cons_self _ _)
          · have hci' : b0.cnt i = 0 := hci
            rcases hP0 i (by rw [hlen1]; exact hi) hci' with h1 | ⟨h2, h3⟩
            · exact Or.inl (List.mem_cons_of_mem t h1)
            · right
              rw [hcnt1_ne i hit] at h2
              exact ⟨h2, h3⟩
    · -- the count stays positive: only the decrement happens
      refine ⟨⟨a.frames.set t (f, c - 1), a.free⟩,
        FrameAtor.release_dec hget hc hc1, ?_⟩
      have hbf : (⟨a.frames.set t (f, c - 1), a.free⟩ : FrameAtor).frames
          = a.frames.set t (f, c - 1) := rfl
      have hlen : (⟨a.frames.set t (f, c - 1), a.free⟩ : FrameAtor).frames.length
          = a.frames.length := by rw [hbf, List.length_set]
      have hfa := FrameAtor.frameAt_of_frames_set_same hget hbf
      have hcnt_t : (⟨a.frames.set t (f, c - 1), a.free⟩ : FrameAtor).cnt t = c - 1 :=
        FrameAtor.cnt_of_frames_set_self hbf htn
      have hcnt_ne : ∀ i, i ≠ t →
          (⟨a.frames.set t (f, c - 1), a.free⟩ : FrameAtor).cnt i = a.cnt i :=
        fun i hi => FrameAtor.cnt_of_frames_set_ne hbf (Ne.symm hi)
      have hlive : ∀ j, j < a.frames.length →
          ((⟨a.frames.set t (f, c - 1), a.free⟩ : FrameAtor).cnt j ≠ 0 ↔ a.cnt j ≠ 0) := by
        intro j hj
        by_cases hjt : j = t
        · subst hjt; rw [hcnt_t, hcntc]; constructor <;> intro <;> omega
        · rw [hcnt_ne j hjt]
      have hpa := FrameAtor.prevAt_congr hfa
      have hparents : ∀ i, parentsLive ⟨a.frames.set t (f, c - 1), a.free⟩ i
          = parentsLive a i :=
        parentsLive_congr hlen hlive (fun j hj _ => hpa j)
      refine ⟨⟨?_, inv.free_nodup, ?_, ?_, ?_, ?_⟩, hlen, hfa, ?_, ?_, ?_, ?_⟩
      · intro i hi; rw [hlen]; exact inv.free_lt i hi
      · intro i hi
        have : i ≠ t := by rintro rfl; exact tfree_not hi
        rw [hcnt_ne i this]; exact inv.free_cnt i hi
      · intro i hi
        rw [hlen]
        apply inv.holders_lt
        by_cases hit : i = t
        · subst hit; simp at hi; omega
        · simp [hit] at hi; exact hi
      · intro i hi
        rw [hlen] at hi
        by_cases hit : i = t
        · subst hit
          rw [hcnt_t, hparents i]
          simp
          omega
        · rw [hcnt_ne i hit, hparents i]
          simp only [if_neg hit]
          exact inv.count_le i hi
      · obtain ⟨rk, hrk⟩ := inv.depth
        refine ⟨rk, ?_⟩
        intro j hj hcj
        rw [hlen] at hj
        rw [(hlive j hj)] at hcj
        have := hrk j hj hcj
        rw [hpa j]
        refine ⟨this.1, ?_⟩
        intro q hq
        obtain ⟨h1, h2, h3⟩ := this.2 q hq
        exact ⟨by rw [hlen]; exact h1, (hlive q h1).mpr h2, h3⟩
      · intro i
        by_cases hit : i = t
        · subst hit; rw [hcnt_t, hcntc]; omega
        · rw [hcnt_ne i hit]
      · intro i hi; exact hi
      · intro i hi; exact Or.inl hi
      · intro i hi hci
        by_cases hit : i = t
        · subst hit; rw [hcnt_t] at hci; omega
        · rw [hcnt_ne i hit] at hci
          by_cases hmem : i ∈ a.free
          · exact Or.inl hmem
          · exact Or.inr ⟨hci, hmem⟩

/-- Weakening: the invariant survives dropping census entries (this is what
a bare Rust drop of a handle does — the count is simply leaked). -/
theorem ArenaInv.census_mono {a : FrameAtor} {h : Nat → Nat} (inv : ArenaInv a h)
    {h' : Nat → Nat} (hm : ∀ i, h' i ≤ h i) : ArenaInv a h' where
  free_lt := inv.free_lt
  free_nodup := inv.free_nodup
  free_cnt := inv.free_cnt
  holders_lt := fun i hi => inv.holders_lt i (by have := hm i; omega)
  count_le := fun i hi => by
    have := inv.count_le i hi
    have := hm i
    omega
  depth := inv.depth

/-- No in-use slot back-links to an out-of-bounds index. -/
theorem parentsLive_oob_zero {a : FrameAtor} {h : Nat → Nat} (inv : ArenaInv a h)
    {i : Nat} (hi : a.frames.length ≤ i) : parentsLive a i = 0 := by
  obtain ⟨rk, hrk⟩ := inv.depth
  unfold parentsLive
  rw [Finset.card_eq_zero]
  apply Finset.filter_false_of_mem
  intro j hj
  rw [Finset.mem_range] at hj
  rintro ⟨h1, h2⟩
  have := ((hrk j hj h1).2 i h2).1
  omega

/-- Specification of `acquire` on an in-use slot: it succeeds, bumps that
slot's count by one, changes nothing else, and preserves the invariant for
the census with one more holder of that slot. -/
theorem acquire_spec {a : FrameAtor} {h : Nat → Nat} {t : Nat}
    (inv : ArenaInv a h) (hcnt : a.cnt t ≠ 0) :
    ∃ b, a.acquire t = some b ∧
      ArenaInv b (fun i => if i = t then h i + 1 else h i) ∧
      b.frames.length = a.frames.length ∧
      (∀ i, b.frameAt i = a.frameAt i) ∧
      b.free = a.free ∧
      b.cnt t = a.cnt t + 1 ∧
      (∀ i, i ≠ t → b.cnt i = a.cnt i) := by
  have htn : t < a.frames.length := FrameAtor.lt_of_cnt_ne_zero hcnt
  obtain ⟨f, c, hget, hcntc, hfat⟩ := FrameAtor.exists_getElem_of_lt htn
  have hc : c ≠ 0 := hcntc ▸ hcnt
  refine ⟨⟨a.frames.set t (f, c + 1), a.free⟩, by rw [FrameAtor.acquire, hget], ?_⟩
  have hbf : (⟨a.frames.set t (f, c + 1), a.free⟩ : FrameAtor).frames
      = a.frames.set t (f, c + 1) := rfl
  have hlen : (⟨a.frames.set t (f, c + 1), a.free⟩ : FrameAtor).frames.length
      = a.frames.length := by rw [hbf, List.length_set]
  have hfa := FrameAtor.frameAt_of_frames_set_same hget hbf
  have hcnt_t : (⟨a.frames.set t (f, c + 1), a.free⟩ : FrameAtor).cnt t = c + 1 :=
    FrameAtor.cnt_of_frames_set_self hbf htn
  have hcnt_ne : ∀ i, i ≠ t →
      (⟨a.frames.set t (f, c + 1), a.free⟩ : FrameAtor).cnt i = a.cnt i :=
    fun i hi => FrameAtor.cnt_of_frames_set_ne hbf (Ne.symm hi)
  have hlive : ∀ j, j < a.frames.length →
      ((⟨a.frames.set t (f, c + 1), a.free⟩ : FrameAtor).cnt j ≠ 0 ↔ a.cnt j ≠ 0) := by
    intro j hj
    by_cases hjt : j = t
    · subst hjt; rw [hcnt_t, hcntc]; constructor <;> intro <;> omega
    · rw [hcnt_ne j hjt]
  have hpa := FrameAtor.prevAt_congr hfa
  have hparents : ∀ i, parentsLive ⟨a.frames.set t (f, c + 1), a.free⟩ i
      = parentsLive a i :=
    parentsLive_congr hlen hlive (fun j hj _ => hpa j)
  have tfree_not : t ∉ a.free := inv.not_free_of_cnt hcnt
  refine ⟨⟨?_, inv.free_nodup, ?_, ?_, ?_, ?_⟩, hlen, hfa, rfl, by rw [hcnt_t, hcntc], hcnt_ne⟩
  · intro i hi; rw [hlen]; exact inv.free_lt i hi
  · intro i hi
    have : i ≠ t := by rintro rfl; exact tfree_not hi
    rw [hcnt_ne i this]; exact inv.free_cnt i hi
  · intro i hi
    rw [hlen]
    by_cases hit : i = t
    · subst hit; exact htn
    · apply inv.holders_lt; simpa [hit] using hi
  · intro i hi
    rw [hlen] at hi
    by_cases hit : i = t
    · subst hit
      rw [hcnt_t, hparents i]
      have := inv.count_le i hi
      rw [hcntc] at this
      simp
      omega
    · rw [hcnt_ne i hit, hparents i]
      simp only [if_neg hit]
      exact inv.count_le i hi
  · obtain ⟨rk, hrk⟩ := inv.depth
    refine ⟨rk, ?_⟩
    intro j hj hcj
    rw [hlen] at hj
    rw [hlive j hj] at hcj
    have := hrk j hj hcj
    rw [hpa j]
    refine ⟨this.1, ?_⟩
    intro q hq
    obtain ⟨h1, h2, h3⟩ := this.2 q hq
    exact ⟨by rw [hlen]; exact h1, (hlive q h1).mpr h2, h3⟩

/-! ## Unfolding equations for `pop`, and census facts for handle lists -/

theorem TypeStack.pop_top_none {s : TypeStack} {a : FrameAtor} (h : s.top = none) :
    s.pop a = some (a, s) := by
  rw [TypeStack.pop, h]

theorem TypeStack.pop_top_some_prev_none {s : TypeStack} {a : FrameAtor} {t0 : Nat}
    {frame : Frame} (h : s.top = some t0) (hd : a.deref_mut t0 = some frame)
    (hp : frame.previous = none) :
    s.pop a = (a.release t0).map (fun a2 => (a2, ⟨none⟩)) := by
  rw [TypeStack.pop, h]
  simp only [hd, hp]

theorem TypeStack.pop_top_some_prev_some {s : TypeStack} {a : FrameAtor} {t0 p : Nat}
    {frame : Frame} (h : s.top = some t0) (hd : a.deref_mut t0 = some frame)
    (hp : frame.previous = some p) :
    s.pop a = (a.acquire p).bind (fun a1 =>
      (a1.release t0).map (fun a2 => (a2, ⟨some p⟩))) := by
  rw [TypeStack.pop, h]
  simp only [hd, hp]

theorem countTop_pos_top {hs : List TypeStack} {k : Nat} {s : TypeStack} {t : Nat}
    (hk : hs[k]? = some s) (htop : s.top = some t) : countTop hs t ≠ 0 := by
  have := countP_getElem_le (fun s => decide (s.top = some t)) hs hk (by simp [htop])
  unfold countTop
  omega

theorem WF.arena {a : FrameAtor} {hs : List TypeStack} (hwf : WF ⟨a, hs⟩) :
    ArenaInv a (countTop hs) := hwf.1

theorem WF.free_complete {a : FrameAtor} {hs : List TypeStack} (hwf : WF ⟨a, hs⟩) :
    ∀ i, i < a.frames.length → a.cnt i = 0 → i ∈ a.free := hwf.2

/-- A handle's top always denotes an in-bounds, in-use slot. -/
theorem WF.top_live {a : FrameAtor} {hs : List TypeStack} (hwf : WF ⟨a, hs⟩)
    {k : Nat} {s : TypeStack} {t : Nat} (hk : hs[k]? = some s) (htop : s.top = some t) :
    t < a.frames.length ∧ a.cnt t ≠ 0 :=
  hwf.arena.holder_live (countTop_pos_top hk htop)

theorem wf_newStack {a : FrameAtor} {hs : List TypeStack} (hwf : WF ⟨a, hs⟩) :
    WF ⟨a, ⟨none⟩ :: hs⟩ := by
  refine ⟨hwf.1.congr_census ?_, hwf.2⟩
  intro i
  rw [countTop_cons]
  simp

theorem wf_dropLeak {a : FrameAtor} {hs : List TypeStack} (k : Nat) (hwf : WF ⟨a, hs⟩) :
    WF ⟨a, hs.eraseIdx k⟩ :=
  ⟨hwf.1.census_mono (fun i => countTop_eraseIdx_le hs k i), hwf.2⟩

theorem wf_clone {a : FrameAtor} {hs : List TypeStack} {k : Nat} {s : TypeStack}
    (hwf : WF ⟨a, hs⟩) (hk : hs[k]? = some s) :
    ∃ b t', s.clone a = some (b, t') ∧ WF ⟨b, t' :: hs⟩ := by
  rcases htop : s.top with _ | t0
  · refine ⟨a, ⟨s.top⟩, by rw [TypeStack.clone, htop], ?_⟩
    rw [htop]
    exact wf_newStack hwf
  · have hcnt : a.cnt t0 ≠ 0 := (hwf.top_live hk htop).2
    obtain ⟨b, hacq, hinv, hlen, hfa, hfree, hct, hcne⟩ := acquire_spec hwf.arena hcnt
    refine ⟨b, ⟨some t0⟩, ?_, ?_, ?_⟩
    · rw [TypeStack.clone, htop]
      simp [hacq]
    · apply hinv.congr_census
      intro i
      rw [countTop_cons]
      by_cases hit : i = t0
      · subst hit; simp
      · simp [hit, Ne.symm hit]
    · intro i hi hci
      rw [hlen] at hi
      have hit : i ≠ t0 := by
        rintro rfl
        rw [hct] at hci
        omega
      rw [hcne i hit] at hci
      rw [hfree]
      exact hwf.free_complete i hi hci

theorem wf_pop {a : FrameAtor} {hs : List TypeStack} {k : Nat} {s : TypeStack}
    (hwf : WF ⟨a, hs⟩) (hk : hs[k]? = some s) :
    ∃ b s', s.pop a = some (b, s') ∧ WF ⟨b, hs.set k s'⟩ := by
  rcases htop : s.top with _ | t0
  · refine ⟨a, s, TypeStack.pop_top_none htop, ?_, hwf.free_complete⟩
    apply hwf.arena.congr_census
    intro i
    have := countTop_set hk s i
    show countTop (hs.set k s) i = countTop hs i
    omega
  · obtain ⟨ht0n, hcnt⟩ := hwf.top_live hk htop
    obtain ⟨f, c, hget, hcntc, hfat⟩ := FrameAtor.exists_getElem_of_lt ht0n
    have hderef : a.deref_mut t0 = some f := by
      simp [FrameAtor.deref_mut, hget]
    have hctpos : countTop hs t0 ≠ 0 := countTop_pos_top hk htop
    rcases hprev : f.previous with _ | p
    · -- bottom frame: just release the top
      obtain ⟨b, hrel, hinvb, hlen, hfa, hmono, hsub, hrev, hP⟩ :=
        release_spec (FrameAtor.sumCounts a) a (countTop hs) t0 le_rfl hwf.arena hctpos
      refine ⟨b, ⟨none⟩, ?_, ?_, ?_⟩
      · rw [TypeStack.pop_top_some_prev_none htop hderef hprev, hrel]
        rfl
      · apply hinvb.congr_census
        intro i
        have := countTop_set hk (⟨none⟩ : TypeStack) i
        rw [htop] at this
        by_cases hit : i = t0
        · subst hit; simp at this ⊢; omega
        · simp only [if_neg hit]; simp [Ne.symm hit] at this; omega
      · intro i hi hci
        rw [hlen] at hi
        rcases hP i hi hci with h1 | ⟨h2, h3⟩
        · exact h1
        · exact absurd (hwf.free_complete i hi h2) h3
    · -- inner frame: acquire the new top first, then release the old one
      have hpat : a.prevAt t0 = some p := by
        rw [FrameAtor.prevAt_eq_of_getElem hget, hprev]
      obtain ⟨rk, hrk⟩ := hwf.arena.depth
      obtain ⟨hpn, hcp, hrkeq⟩ := (hrk t0 ht0n hcnt).2 p hpat
      have hpt : p ≠ t0 := by
        rintro rfl
        omega
      obtain ⟨a1, hacq, hinv1, hlen1, hfa1, hfree1, hct1, hcne1⟩ :=
        acquire_spec hwf.arena hcp
      have hcensus1_t0 : (fun i => if i = p then countTop hs i + 1 else countTop hs i) t0 ≠ 0 := by
        simp only [if_neg (Ne.symm hpt)]
        exact hctpos
      obtain ⟨b, hrel, hinvb, hlen2, hfa2, hmono2, hsub2, hrev2, hP2⟩ :=
        release_spec (FrameAtor.sumCounts a1) a1 _ t0 le_rfl hinv1 hcensus1_t0
      refine ⟨b, ⟨some p⟩, ?_, ?_, ?_⟩
      · rw [TypeStack.pop_top_some_prev_some htop hderef hprev, hacq]
        show (a1.release t0).map (fun a2 => (a2, (⟨some p⟩ : TypeStack))) = some (b, ⟨some p⟩)
        rw [hrel]
        rfl
      · apply hinvb.congr_census
        intro i
        have := countTop_set hk (⟨some p⟩ : TypeStack) i
        rw [htop] at this
        by_cases hit : i = t0
        · subst hit
          simp [hpt, Ne.symm hpt] at this ⊢
          omega
        · by_cases hip : i = p
          · subst hip
            simp [Ne.symm hit] at this
            simp [hit]
            omega
          · simp only [if_neg hit, if_neg hip]
            simp [Ne.symm hit, Ne.symm hip] at this
            omega
      · intro i hi hci
        rw [hlen2, hlen1] at hi
        rcases hP2 i (by rw [hlen1]; exact hi) hci with h1 | ⟨h2, h3⟩
        · exact h1
        · exfalso
          have hip : i ≠ p := by
            rintro rfl
            rw [hct1] at h2
            omega
          rw [hcne1 i hip] at h2
          rw [hfree1] at h3
          exact h3 (hwf.free_complete i hi h2)

theorem wf_dropRelease {a : FrameAtor} {hs : List TypeStack} {k : Nat} {s : TypeStack}
    {t0 : Nat} (hwf : WF ⟨a, hs⟩) (hk : hs[k]? = some s) (htop : s.top = some t0) :
    ∃ b, a.release t0 = some b ∧ WF ⟨b, hs.eraseIdx k⟩ := by
  have hctpos : countTop hs t0 ≠ 0 := countTop_pos_top hk htop
  obtain ⟨b, hrel, hinvb, hlen, hfa, hmono, hsub, hrev, hP⟩ :=
    release_spec (FrameAtor.sumCounts a) a (countTop hs) t0 le_rfl hwf.arena hctpos
  refine ⟨b, hrel, ?_, ?_⟩
  · apply hinvb.congr_census
    intro i
    have := countTop_eraseIdx hk i
    rw [htop] at this
    show countTop (hs.eraseIdx k) i = _
    by_cases hit : i = t0
    · subst hit; simp at this ⊢; omega
    · simp only [if_neg hit]; simp [Ne.symm hit] at this; omega
  · intro i hi hci
    rw [hlen] at hi
    rcases hP i hi hci with h1 | ⟨h2, h3⟩
    · exact h1
    · exact absurd (hwf.free_complete i hi h2) h3

/-- Specification of `alloc`.  With the census debited were the new frame's
back-link points (the push discipline moves that one unit of ownership from
the handle into the frame), allocation yields a fresh slot of count 1:
either the most recently freed index, or a brand-new slot at the end. -/
theorem alloc_spec {a : FrameAtor} {h : Nat → Nat} {f : Frame}
    (inv : ArenaInv a h)
    (hcomplete : ∀ i, i < a.frames.length → a.cnt i = 0 → i ∈ a.free)
    (hfp : ∀ j, f.previous = some j → h j ≠ 0) :
    ∃ b r, a.alloc f = (b, r) ∧
      ArenaInv b (fun i => if i = r then h i + 1
        else if f.previous = some i then h i - 1 else h i) ∧
      a.cnt r = 0 ∧
      b.cnt r = 1 ∧
      b.frameAt r = some f ∧
      (∀ i, i ≠ r → b.cnt i = a.cnt i) ∧
      (∀ i, i ≠ r → b.frameAt i = a.frameAt i) ∧
      (∀ i, i ∈ b.free ↔ i ∈ a.free ∧ i ≠ r) ∧
      a.frames.length ≤ b.frames.length ∧
      (b.frames.length = a.frames.length ∧ r ∈ a.free ∨
        b.frames.length = a.frames.length + 1 ∧ r = a.frames.length ∧ a.free = []) ∧
      (∀ i, i < b.frames.length → b.cnt i = 0 → i ∈ b.free) := by
  have hfp_live : ∀ j, f.previous = some j → j < a.frames.length ∧ a.cnt j ≠ 0 :=
    fun j hj => inv.holder_live (hfp j hj)
  obtain ⟨rk, hrk⟩ := inv.depth
  rcases hfree : a.free with _ | ⟨r, rest⟩
  · -- appending a brand-new slot
    refine ⟨⟨a.frames ++ [(f, 1)], []⟩, a.frames.length,
      by rw [FrameAtor.alloc, hfree], ?_⟩
    generalize hb : (⟨a.frames ++ [(f, 1)], ([] : List Nat)⟩ : FrameAtor) = b
    have hbframes : b.frames = a.frames ++ [(f, 1)] := by rw [← hb]
    have hbfree : b.free = [] := by rw [← hb]
    have hlen : b.frames.length = a.frames.length + 1 := by rw [hbframes]; simp
    have hcnt_new : b.cnt a.frames.length = 1 := by
      simp [FrameAtor.cnt, hbframes, List.getElem?_concat_length]
    have hcnt_ne : ∀ i, i ≠ a.frames.length → b.cnt i = a.cnt i := by
      intro i hi
      rcases Nat.lt_or_ge i a.frames.length with h1 | h1
      · simp [FrameAtor.cnt, hbframes, List.getElem?_append_left h1]
      · rw [FrameAtor.cnt_oob (by omega), FrameAtor.cnt_oob h1]
    have hfa_new : b.frameAt a.frames.length = some f := by
      simp [FrameAtor.frameAt, hbframes, List.getElem?_concat_length]
    have hfa_ne : ∀ i, i ≠ a.frames.length → b.frameAt i = a.frameAt i := by
      intro i hi
      rcases Nat.lt_or_ge i a.frames.length with h1 | h1
      · simp [FrameAtor.frameAt, hbframes, List.getElem?_append_left h1]
      · have e1 : b.frames[i]? = none := List.getElem?_eq_none (by omega)
        have e2 : a.frames[i]? = none := List.getElem?_eq_none h1
        simp [FrameAtor.frameAt, e1, e2]
    have hprev_new : b.prevAt a.frames.length = f.previous := by
      simp [FrameAtor.prevAt, hfa_new]
    have hparents : ∀ i, parentsLive b i
        = parentsLive a i + (if f.previous = some i then 1 else 0) :=
      parentsLive_alloc_append hbframes
    have hacnt_r : a.cnt a.frames.length = 0 := FrameAtor.cnt_oob le_rfl
    have hpan : parentsLive a a.frames.length = 0 := parentsLive_oob_zero inv le_rfl
    have hhr : h a.frames.length = 0 := by
      by_contra hne
      exact absurd (inv.holders_lt _ hne) (lt_irrefl _)
    have hfpr : f.previous ≠ some a.frames.length := by
      intro hcontra
      exact (hfp _ hcontra) hhr
    refine ⟨⟨?_, ?_, ?_, ?_, ?_, ?_⟩, hacnt_r, hcnt_new, hfa_new, hcnt_ne, hfa_ne,
      ?_, by omega, Or.inr ⟨hlen, rfl, rfl⟩, ?_⟩
    · intro i hi; rw [hbfree] at hi; simp at hi
    · rw [hbfree]; exact List.nodup_nil
    · intro i hi; rw [hbfree] at hi; simp at hi
    · intro i hi
      by_cases hir : i = a.frames.length
      · subst hir; omega
      · simp only [if_neg hir] at hi
        have : h i ≠ 0 := by
          by_cases hfi : f.previous = some i
          · simp only [if_pos hfi] at hi; omega
          · simpa [hfi] using hi
        have := inv.holders_lt i this
        omega
    · intro i hi
      rw [hlen] at hi
      by_cases hir : i = a.frames.length
      · subst hir
        rw [hcnt_new, hparents, hpan]
        simp [hfpr]
        omega
      · have h1 := inv.count_le i (by omega)
        rw [hcnt_ne i hir, hparents]
        simp only [if_neg hir]
        by_cases hfi : f.previous = some i
        · simp only [if_pos hfi]
          have := hfp i hfi
          omega
        · simp only [if_neg hfi]
          omega
    · refine ⟨fun j => if j = a.frames.length
          then f.previous.elim 0 (fun t0 => rk t0 + 1) else rk j, ?_⟩
      intro j hj hcj
      by_cases hjr : j = a.frames.length
      · subst hjr
        constructor
        · intro hpnone
          rw [hprev_new] at hpnone
          simp [hpnone]
        · intro q hq
          rw [hprev_new] at hq
          obtain ⟨hq1, hq2⟩ := hfp_live q hq
          refine ⟨by omega, ?_, ?_⟩
          · rw [hcnt_ne q (by omega)]; exact hq2
          · simp [hq, (show q ≠ a.frames.length by omega)]
      · have hj' : j < a.frames.length := by rw [hlen] at hj; omega
        rw [hcnt_ne j hjr] at hcj
        have hcl := hrk j hj' hcj
        have hpb : b.prevAt j = a.prevAt j := by
          simp [FrameAtor.prevAt, hfa_ne j hjr]
        rw [hpb]
        constructor
        · intro hpn; simp only [if_neg hjr]; exact hcl.1 hpn
        · intro q hq
          obtain ⟨hq1, hq2, hq3⟩ := hcl.2 q hq
          refine ⟨by omega, ?_, ?_⟩
          · rw [hcnt_ne q (by omega)]; exact hq2
          · simp only [if_neg hjr, if_neg (show q ≠ a.frames.length by omega)]
            exact hq3
    · intro i; rw [hbfree]; simp
    · intro i hi hci
      by_cases hir : i = a.frames.length
      · subst hir; rw [hcnt_new] at hci; omega
      · rw [hcnt_ne i hir] at hci
        have h1 : i < a.frames.length := by rw [hlen] at hi; omega
        have := hcomplete i h1 hci
        rw [hfree] at this
        simp at this
  · -- reusing the most recently freed slot
    have hrmem : r ∈ a.free := by rw [hfree]; exact List.mem_cons_self _ _
    have hrn : r < a.frames.length := inv.free_lt r hrmem
    have hacnt_r : a.cnt r = 0 := inv.free_cnt r hrmem
    obtain ⟨g, cg, hget_r, hcg, -⟩ := FrameAtor.exists_getElem_of_lt hrn
    have hcg0 : cg = 0 := by omega
    subst hcg0
    have hnodups := inv.free_nodup
    rw [hfree] at hnodups
    obtain ⟨hrnotin, hrestnodup⟩ := List.nodup_cons.mp hnodups
    have hhr : h r = 0 := by
      have := inv.count_le r hrn
      omega
    have hfpr : f.previous ≠ some r := by
      intro hcontra
      exact (hfp _ hcontra) hhr
    have hpar : parentsLive a r = 0 := by
      have := inv.count_le r hrn
      omega
    refine ⟨⟨a.frames.set r (f, 1), rest⟩, r, by rw [FrameAtor.alloc, hfree], ?_⟩
    generalize hb : (⟨a.frames.set r (f, 1), rest⟩ : FrameAtor) = b
    have hbframes : b.frames = a.frames.set r (f, 1) := by rw [← hb]
    have hbfree : b.free = rest := by rw [← hb]
    have hlen : b.frames.length = a.frames.length := by rw [hbframes]; simp
    have hcnt_new : b.cnt r = 1 := FrameAtor.cnt_of_frames_set_self hbframes hrn
    have hcnt_ne : ∀ i, i ≠ r → b.cnt i = a.cnt i :=
      fun i hi => FrameAtor.cnt_of_frames_set_ne hbframes (Ne.symm hi)
    have hfa_new : b.frameAt r = some f :=
      FrameAtor.frameAt_of_frames_set_self hbframes hrn
    have hfa_ne : ∀ i, i ≠ r → b.frameAt i = a.frameAt i :=
      fun i hi => FrameAtor.frameAt_of_frames_set_ne hbframes (Ne.symm hi)
    have hprev_new : b.prevAt r = f.previous := by
      simp [FrameAtor.prevAt, hfa_new]
    have hparents : ∀ i, parentsLive b i
        = parentsLive a i + (if f.previous = some i then 1 else 0) :=
      parentsLive_alloc_reuse hget_r hbframes
    refine ⟨⟨?_, ?_, ?_, ?_, ?_, ?_⟩, hacnt_r, hcnt_new, hfa_new, hcnt_ne, hfa_ne,
      ?_, by omega, Or.inl ⟨hlen, List.mem_cons_self _ _⟩, ?_⟩
    · intro i hi
      rw [hbfree] at hi
      rw [hlen]
      exact inv.free_lt i (by rw [hfree]; exact List.mem_cons_of_mem r hi)
    · rw [hbfree]; exact hrestnodup
    · intro i hi
      rw [hbfree] at hi
      have hir : i ≠ r := by rintro rfl; exact hrnotin hi
      rw [hcnt_ne i hir]
      exact inv.free_cnt i (by rw [hfree]; exact List.mem_cons_of_mem r hi)
    · intro i hi
      by_cases hir : i = r
      · subst hir; rw [hlen]; exact hrn
      · simp only [if_neg hir] at hi
        have : h i ≠ 0 := by
          by_cases hfi : f.previous = some i
          · simp only [if_pos hfi] at hi; omega
          · simpa [hfi] using hi
        have := inv.holders_lt i this
        omega
    · intro i hi
      rw [hlen] at hi
      by_cases hir : i = r
      · subst hir
        rw [hcnt_new, hparents, hpar]
        simp [hfpr]
        omega
      · have h1 := inv.count_le i hi
        rw [hcnt_ne i hir, hparents]
        simp only [if_neg hir]
        by_cases hfi : f.previous = some i
        · simp only [if_pos hfi]
          have := hfp i hfi
          omega
        · simp only [if_neg hfi]
          omega
    · refine ⟨fun j => if j = r
          then f.previous.elim 0 (fun t0 => rk t0 + 1) else rk j, ?_⟩
      intro j hj hcj
      by_cases hjr : j = r
      · subst hjr
        constructor
        · intro hpnone
          rw [hprev_new] at hpnone
          simp [hpnone]
        · intro q hq
          rw [hprev_new] at hq
          obtain ⟨hq1, hq2⟩ := hfp_live q hq
          have hqr : q ≠ j := by rintro rfl; exact hq2 hacnt_r
          refine ⟨by omega, ?_, ?_⟩
          · rw [hcnt_ne q hqr]; exact hq2
          · simp [hq, hqr]
      · have hj' : j < a.frames.length := by rw [hlen] at hj; omega
        rw [hcnt_ne j hjr] at hcj
        have hcl := hrk j hj' hcj
        have hpb : b.prevAt j = a.prevAt j := by
          simp [FrameAtor.prevAt, hfa_ne j hjr]
        rw [hpb]
        constructor
        · intro hpn; simp only [if_neg hjr]; exact hcl.1 hpn
        · intro q hq
          obtain ⟨hq1, hq2, hq3⟩ := hcl.2 q hq
          have hqr : q ≠ r := by rintro rfl; exact hq2 hacnt_r
          refine ⟨by omega, ?_, ?_⟩
          · rw [hcnt_ne q hqr]; exact hq2
          · simp only [if_neg hjr, if_neg hqr]
            exact hq3
    · intro i
      rw [hbfree]
      constructor
      · intro hi
        exact ⟨List.mem_cons_of_mem r hi, by rintro rfl; exact hrnotin hi⟩
      · rintro ⟨hi, hir⟩
        rcases List.mem_cons.mp hi with rfl | hi'
        · exact absurd rfl hir
        · exact hi'
    · intro i hi hci
      by_cases hir : i = r
      · subst hir; rw [hcnt_new] at hci; omega
      · rw [hcnt_ne i hir] at hci
        have h1 : i < a.frames.length := by rw [hlen] at hi; omega
        have := hcomplete i h1 hci
        rw [hfree] at this
        rw [hbfree]
        rcases List.mem_cons.mp this with rfl | hi'
        · exact absurd rfl hir
        · exact hi'

theorem wf_push {a : FrameAtor} {hs : List TypeStack} {k : Nat} {s : TypeStack}
    (d : DataType) (hwf : WF ⟨a, hs⟩) (hk : hs[k]? = some s) :
    ∃ b r, s.push a d = (b, ⟨some r⟩) ∧ WF ⟨b, hs.set k ⟨some r⟩⟩ := by
  have hfp : ∀ j, (⟨d, s.top⟩ : Frame).previous = some j → countTop hs j ≠ 0 :=
    fun j hj => countTop_pos_top hk hj
  obtain ⟨b, r, halloc, hinv, hacnt, hbcnt, hbfa, hcne, hfane, hfreeiff, hlenle,
    hcase, hcompl⟩ := alloc_spec hwf.arena hwf.free_complete hfp
  have hsr : s.top ≠ some r := by
    intro hcontra
    exact (hwf.arena.holder_live (hfp r hcontra)).2 hacnt
  refine ⟨b, r, ?_, ?_, hcompl⟩
  · rw [TypeStack.push]
    simp only [halloc]
  · apply hinv.congr_census
    intro i
    have hset := countTop_set hk (⟨some r⟩ : TypeStack) i
    show countTop (hs.set k ⟨some r⟩) i = _
    by_cases hir : i = r
    · subst hir
      simp [hsr] at hset
      simp
      omega
    · by_cases hfi : s.top = some i
      · simp [hfi, Ne.symm hir] at hset
        simp [hir, hfi]
        omega
      · simp [hfi, Ne.symm hir] at hset
        simp [hir, hfi]
        omega

/-- Every public operation preserves the state invariant. -/
theorem wf_step {c c' : Config} {op : Op} (hwf : WF c) (hstep : applyOp c op = some c') :
    WF c' := by
  obtain ⟨a, hs⟩ := c
  cases op with
  | newStack =>
    simp only [applyOp, Option.some_inj] at hstep
    subst hstep
    exact wf_newStack hwf
  | push k d =>
    simp only [applyOp] at hstep
    rcases hk : hs[k]? with _ | s
    · rw [hk] at hstep; simp at hstep
    · rw [hk] at hstep
      simp only [Option.map_some'] at hstep
      obtain ⟨b, r, hpush, hwf'⟩ := wf_push d hwf hk
      rw [Option.some_inj] at hstep
      subst hstep
      show WF ⟨(s.push a d).1, hs.set k (s.push a d).2⟩
      rw [hpush]
      exact hwf'
  | pop k =>
    simp only [applyOp] at hstep
    rcases hk : hs[k]? with _ | s
    · rw [hk] at hstep; simp at hstep
    · rw [hk] at hstep
      obtain ⟨b, s', hpop, hwf'⟩ := wf_pop hwf hk
      simp only [Option.some_bind, hpop, Option.map_some', Option.some_inj] at hstep
      subst hstep
      exact hwf'
  | clone k =>
    simp only [applyOp] at hstep
    rcases hk : hs[k]? with _ | s
    · rw [hk] at hstep; simp at hstep
    · rw [hk] at hstep
      obtain ⟨b, t', hclone, hwf'⟩ := wf_clone hwf hk
      simp only [Option.some_bind, hclone, Option.map_some', Option.some_inj] at hstep
      subst hstep
      exact hwf'
  | dropRelease k =>
    simp only [applyOp] at hstep
    rcases hk : hs[k]? with _ | s
    · rw [hk] at hstep; simp at hstep
    · rw [hk] at hstep
      simp only [Option.some_bind] at hstep
      rcases htop : s.top with _ | t0
      · rw [htop, Option.some_inj] at hstep
        subst hstep
        exact wf_dropLeak k hwf
      · rw [htop] at hstep
        obtain ⟨b, hrel, hwf'⟩ := wf_dropRelease hwf hk htop
        simp only [hrel, Option.map_some', Option.some_inj] at hstep
        subst hstep
        exact hwf'
  | dropLeak k =>
    simp only [applyOp] at hstep
    rcases hk : hs[k]? with _ | s
    · rw [hk] at hstep; simp at hstep
    · rw [hk] at hstep
      simp only [Option.map_some', Option.some_inj] at hstep
      subst hstep
      exact wf_dropLeak k hwf

/-- The state invariant holds in every reachable state. -/
theorem reachable_wf {c : Config} (h : Reachable c) : WF c := by
  induction h with
  | init =>
    refine ⟨⟨?_, List.nodup_nil, ?_, ?_, ?_, ⟨fun _ => 0, ?_⟩⟩, ?_⟩
    · intro i hi; simp at hi
    · intro i hi; simp at hi
    · intro i hi; simp [countTop] at hi
    · intro i hi; simp at hi
    · intro j hj; simp at hj
    · intro i hi; simp at hi
  | step op hr hstep ih => exact wf_step ih hstep

/-! ## The back-link walk: termination, distinctness, liveness -/

theorem chainF_mono {a : FrameAtor} :
    ∀ (fuel : Nat) (top : Option Nat) (l : List Nat), chainF a fuel top = some l →
      ∀ fuel', fuel ≤ fuel' → chainF a fuel' top = some l := by
  intro fuel
  induction fuel with
  | zero =>
    intro top l h fuel' hle
    cases top with
    | none => simp [chainF] at h ⊢; exact h
    | some t => simp [chainF] at h
  | succ fuel ih =>
    intro top l h fuel' hle
    cases top with
    | none => simp [chainF] at h ⊢; exact h
    | some t =>
      cases fuel' with
      | zero => omega
      | succ fuel'' =>
        simp only [chainF] at h ⊢
        rcases hd : a.deref t with _ | f
        · rw [hd] at h; simp at h
        · rw [hd] at h
          simp only [Option.some_bind] at h ⊢
          rcases hc : chainF a fuel f.previous with _ | l'
          · rw [hc] at h; simp at h
          · rw [hc] at h
            rw [ih f.previous l' hc fuel'' (by omega)]
            exact h

theorem chainF_spec {a : FrameAtor} (rk : Nat → Nat)
    (hrk : ∀ j, j < a.frames.length → a.cnt j ≠ 0 →
      (a.prevAt j = none → rk j = 0) ∧
      (∀ p, a.prevAt j = some p →
        p < a.frames.length ∧ a.cnt p ≠ 0 ∧ rk j = rk p + 1)) :
    ∀ (m t : Nat), rk t = m → t < a.frames.length → a.cnt t ≠ 0 →
      ∀ fuel, m < fuel →
      ∃ l, chainF a fuel (some t) = some l ∧
        l.length = rk t + 1 ∧
        (∀ i ∈ l, i < a.frames.length ∧ a.cnt i ≠ 0 ∧ rk i ≤ rk t) ∧
        l.Nodup ∧
        l.head? = some t ∧
        (∃ q, l.getLast? = some q ∧ a.prevAt q = none) := by
  intro m
  induction m using Nat.strong_induction_on with
  | _ m ih =>
    intro t hrkt htn hct fuel hfuel
    obtain ⟨f, c, hget, hcntc, hfat⟩ := FrameAtor.exists_getElem_of_lt htn
    cases fuel with
    | zero => omega
    | succ fuel =>
      have hderef : a.deref t = some f := by simp [FrameAtor.deref, hget]
      rcases hp : f.previous with _ | p
      · have hpat : a.prevAt t = none := by
          rw [FrameAtor.prevAt_eq_of_getElem hget, hp]
        have hrk0 : rk t = 0 := (hrk t htn hct).1 hpat
        refine ⟨[t], ?_, by simp [hrk0], ?_, List.nodup_singleton t, by simp, t, by simp, hpat⟩
        · simp [chainF, hderef, hp]
        · intro i hi
          simp at hi
          subst hi
          exact ⟨htn, hct, le_rfl⟩
      · have hpat : a.prevAt t = some p := by
          rw [FrameAtor.prevAt_eq_of_getElem hget, hp]
        obtain ⟨hpn, hcp, hrkeq⟩ := (hrk t htn hct).2 p hpat
        have hplt : rk p < m := by omega
        obtain ⟨l', hl', hlen', hmem', hnodup', hhead', q, hlast', hqnone⟩ :=
          ih (rk p) hplt p rfl hpn hcp fuel (by omega)
        have hchain : chainF a (fuel + 1) (some t) = some (t :: l') := by
          simp [chainF, hderef, hp, hl']
        have htnotin : t ∉ l' := by
          intro hmem
          have := (hmem' t hmem).2.2
          omega
        refine ⟨t :: l', hchain, by simp; omega, ?_, List.Nodup.cons htnotin hnodup',
          by simp, q, ?_, hqnone⟩
        · intro i hi
          rcases List.mem_cons.mp hi with rfl | hi'
          · exact ⟨htn, hct, le_rfl⟩
          · obtain ⟨h1, h2, h3⟩ := hmem' i hi'
            exact ⟨h1, h2, by omega⟩
        · rcases l' with _ | ⟨x, xs⟩
          · simp at hlen'
          · rw [List.getLast?_cons_cons]
            exact hlast'

theorem length_le_of_nodup_lt {l : List Nat} {n : Nat} (hn : l.Nodup)
    (hlt : ∀ i ∈ l, i < n) : l.length ≤ n := by
  calc l.length = l.toFinset.card := (List.toFinset_card_of_nodup hn).symm
    _ ≤ (Finset.range n).card := Finset.card_le_card
        (fun x hx => Finset.mem_range.mpr (hlt x (List.mem_toFinset.mp hx)))
    _ = n := Finset.card_range n

/-- In a well-formed state, walking back-links from any handle's top
terminates within the fuel `chain` provides, visits pairwise-distinct
in-use in-bounds slots starting at the top, and ends at a bottom frame. -/
theorem chain_spec_of_wf {a : FrameAtor} {hs : List TypeStack} (hwf : WF ⟨a, hs⟩)
    {k : Nat} {s : TypeStack} {t : Nat} (hk : hs[k]? = some s) (htop : s.top = some t) :
    ∃ l, s.chain a = some l ∧
      l.head? = some t ∧
      l.Nodup ∧
      (∀ i ∈ l, i < a.frames.length ∧ a.cnt i ≠ 0 ∧ i ∉ a.free) ∧
      (∃ q, l.getLast? = some q ∧ a.prevAt q = none) := by
  obtain ⟨htn, hct⟩ := hwf.top_live hk htop
  obtain ⟨rk, hrk⟩ := hwf.arena.depth
  obtain ⟨l, hl, hlen, hmem, hnodup, hhead, hlast⟩ :=
    chainF_spec rk hrk (rk t) t rfl htn hct (rk t + 1) (by omega)
  have hbound : l.length ≤ a.frames.length :=
    length_le_of_nodup_lt hnodup (fun i hi => (hmem i hi).1)
  have hfuel : rk t + 1 ≤ a.frames.length + 1 := by omega
  have hl' : chainF a (a.frames.length + 1) (some t) = some l :=
    chainF_mono (rk t + 1) (some t) l hl (a.frames.length + 1) hfuel
  refine ⟨l, ?_, hhead, hnodup, ?_, hlast⟩
  · rw [TypeStack.chain, htop]
    exact hl'
  · intro i hi
    obtain ⟨h1, h2, -⟩ := hmem i hi
    exact ⟨h1, h2, hwf.arena.not_free_of_cnt h2⟩

/-! ## Payload preservation and dump congruence -/

theorem acquire_preserves_frames {a b : FrameAtor} {t : Nat} (h : a.acquire t = some b) :
    b.frames.length = a.frames.length ∧ (∀ i, b.frameAt i = a.frameAt i) ∧
    b.free = a.free := by
  rw [FrameAtor.acquire] at h
  rcases hget : a.frames[t]? with _ | ⟨f, c⟩
  · rw [hget] at h; simp at h
  · rw [hget] at h
    simp only [Option.some_inj] at h
    subst h
    refine ⟨by simp, ?_, rfl⟩
    exact FrameAtor.frameAt_of_frames_set_same hget rfl

theorem release_preserves_frames : ∀ (N : Nat) (a : FrameAtor) (t : Nat) (b : FrameAtor),
    FrameAtor.sumCounts a ≤ N → a.release t = some b →
    b.frames.length = a.frames.length ∧ (∀ i, b.frameAt i = a.frameAt i) := by
  intro N
  induction N with
  | zero =>
    intro a t b hN h
    rcases hget : a.frames[t]? with _ | ⟨f, c⟩
    · rw [FrameAtor.release_oob hget] at h; simp at h
    · have hc : c = 0 := by
        have h1 : a.cnt t = c := FrameAtor.cnt_eq_of_getElem hget
        have h2 := FrameAtor.cnt_le_sumCounts a t
        omega
      subst hc
      rw [FrameAtor.release_underflow hget] at h
      simp at h
  | succ N ih =>
    intro a t b hN h
    rcases hget : a.frames[t]? with _ | ⟨f, c⟩
    · rw [FrameAtor.release_oob hget] at h; simp at h
    · by_cases hc : c = 0
      · subst hc; rw [FrameAtor.release_underflow hget] at h; simp at h
      · by_cases hc1 : c - 1 = 0
        · rcases hp : f.previous with _ | p
          · rw [FrameAtor.release_zero_none hget hc hc1 hp] at h
            simp only [Option.some_inj] at h
            subst h
            exact ⟨by simp, FrameAtor.frameAt_of_frames_set_same hget rfl⟩
          · rw [FrameAtor.release_zero_some hget hc hc1 hp] at h
            rcases hrel : FrameAtor.release ⟨a.frames.set t (f, c - 1), a.free⟩ p
              with _ | b0
            · rw [hrel] at h; simp at h
            · rw [hrel] at h
              simp only [Option.map_some', Option.some_inj] at h
              subst h
              have hsum : FrameAtor.sumCounts ⟨a.frames.set t (f, c - 1), a.free⟩ ≤ N := by
                have := FrameAtor.sum_map_set_lt a.frames t f c hget hc
                unfold FrameAtor.sumCounts at hN ⊢
                simp only at this ⊢
                omega
              obtain ⟨hlen0, hfa0⟩ := ih _ p b0 hsum hrel
              have hfa1 : ∀ i,
                  (⟨a.frames.set t (f, c - 1), a.free⟩ : FrameAtor).frameAt i
                    = a.frameAt i :=
                FrameAtor.frameAt_of_frames_set_same hget rfl
              constructor
              · show b0.frames.length = a.frames.length
                rw [hlen0]; simp
              · intro i
                show b0.frameAt i = a.frameAt i
                rw [hfa0 i, hfa1 i]
        · rw [FrameAtor.release_dec hget hc hc1] at h
          simp only [Option.some_inj] at h
          subst h
          exact ⟨by simp, FrameAtor.frameAt_of_frames_set_same hget rfl⟩

theorem pop_preserves_frames {s : TypeStack} {a : FrameAtor} {b : FrameAtor}
    {s' : TypeStack} (h : s.pop a = some (b, s')) :
    b.frames.length = a.frames.length ∧ ∀ i, b.frameAt i = a.frameAt i := by
  rcases htop : s.top with _ | t0
  · rw [TypeStack.pop_top_none htop] at h
    simp only [Option.some_inj, Prod.mk.injEq] at h
    rw [← h.1]
    exact ⟨rfl, fun i => rfl⟩
  · rcases hd : a.deref_mut t0 with _ | f
    · rw [TypeStack.pop, htop] at h; simp [hd] at h
    · rcases hp : f.previous with _ | p
      · rw [TypeStack.pop_top_some_prev_none htop hd hp] at h
        rcases hrel : a.release t0 with _ | b0
        · rw [hrel] at h; simp at h
        · rw [hrel] at h
          simp only [Option.map_some', Option.some_inj, Prod.mk.injEq] at h
          obtain ⟨heq, -⟩ := h
          rw [← heq]
          exact release_preserves_frames (FrameAtor.sumCounts a) a t0 b0 le_rfl hrel
      · rw [TypeStack.pop_top_some_prev_some htop hd hp] at h
        rcases hacq : a.acquire p with _ | a1
        · rw [hacq] at h; simp at h
        · rw [hacq] at h
          simp only [Option.some_bind] at h
          rcases hrel : a1.release t0 with _ | b0
          · rw [hrel] at h; simp at h
          · rw [hrel] at h
            simp only [Option.map_some', Option.some_inj, Prod.mk.injEq] at h
            obtain ⟨heq, -⟩ := h
            rw [← heq]
            obtain ⟨hl1, hf1, -⟩ := acquire_preserves_frames hacq
            obtain ⟨hl2, hf2⟩ :=
              release_preserves_frames (FrameAtor.sumCounts a1) a1 t0 b0 le_rfl hrel
            exact ⟨hl2.trans hl1, fun i => (hf2 i).trans (hf1 i)⟩

theorem deref_eq_frameAt (a : FrameAtor) (i : Nat) : a.deref i = a.frameAt i := rfl

theorem dumpF_congr {a b : FrameAtor} (hfa : ∀ i, b.frameAt i = a.frameAt i) :
    ∀ (fuel : Nat) (top : Option Nat), dumpF b fuel top = dumpF a fuel top := by
  intro fuel
  induction fuel with
  | zero => intro top; cases top <;> simp [dumpF]
  | succ fuel ih =>
    intro top
    cases top with
    | none => simp [dumpF]
    | some t =>
      simp only [dumpF, deref_eq_frameAt, hfa t]
      cases a.frameAt t with
      | none => rfl
      | some f => simp only [Option.some_bind, ih f.previous]

theorem chainF_congr {a b : FrameAtor} (hfa : ∀ i, b.frameAt i = a.frameAt i) :
    ∀ (fuel : Nat) (top : Option Nat), chainF b fuel top = chainF a fuel top := by
  intro fuel
  induction fuel with
  | zero => intro top; cases top <;> simp [chainF]
  | succ fuel ih =>
    intro top
    cases top with
    | none => simp [chainF]
    | some t =>
      simp only [chainF, deref_eq_frameAt, hfa t]
      cases a.frameAt t with
      | none => rfl
      | some f => simp only [Option.some_bind, ih f.previous]

theorem dump_congr {a b : FrameAtor} (hlen : b.frames.length = a.frames.length)
    (hfa : ∀ i, b.frameAt i = a.frameAt i) (s : TypeStack) :
    s.dump b = s.dump a := by
  rw [TypeStack.dump, TypeStack.dump, hlen]
  exact dumpF_congr hfa _ _

theorem chain_congr {a b : FrameAtor} (hlen : b.frames.length = a.frames.length)
    (hfa : ∀ i, b.frameAt i = a.frameAt i) (s : TypeStack) :
    s.chain b = s.chain a := by
  rw [TypeStack.chain, TypeStack.chain, hlen]
  exact chainF_congr hfa _ _

/-! ## Iterated pops on one handle -/

theorem set_self_of_getElem {α : Type} {l : List α} {k : Nat} {x : α}
    (h : l[k]? = some x) : l.set k x = l := by
  apply List.ext_getElem?
  intro n
  by_cases hn : n = k
  · subst hn
    rw [List.getElem?_set_self (List.getElem?_eq_some.mp h).1, h]
  · rw [List.getElem?_set_ne (Ne.symm hn)]

theorem popSteps_spec : ∀ (m : Nat) {a : FrameAtor} {hs : List TypeStack} {k : Nat}
    {s : TypeStack} {a' : FrameAtor} {s' : TypeStack},
    Reachable ⟨a, hs⟩ → hs[k]? = some s → popSteps m s a = some (a', s') →
    Reachable ⟨a', hs.set k s'⟩ ∧
    a'.frames.length = a.frames.length ∧
    (∀ i, a'.frameAt i = a.frameAt i) := by
  intro m
  induction m with
  | zero =>
    intro a hs k s a' s' hreach hk hpop
    simp only [popSteps, Option.some_inj, Prod.mk.injEq] at hpop
    obtain ⟨h1, h2⟩ := hpop
    rw [← h1, ← h2]
    rw [set_self_of_getElem hk]
    exact ⟨hreach, rfl, fun i => rfl⟩
  | succ m ih =>
    intro a hs k s a' s' hreach hk hpop
    simp only [popSteps] at hpop
    rcases hpop1 : s.pop a with _ | ⟨b, s1⟩
    · rw [hpop1] at hpop; simp at hpop
    · rw [hpop1] at hpop
      simp only [Option.some_bind] at hpop
      have hstep : applyOp ⟨a, hs⟩ (.pop k) = some ⟨b, hs.set k s1⟩ := by
        simp [applyOp, hk, hpop1]
      have hreach1 : Reachable ⟨b, hs.set k s1⟩ := Reachable.step _ hreach hstep
      have hklen : k < hs.length := (List.getElem?_eq_some.mp hk).1
      have hk1 : (hs.set k s1)[k]? = some s1 :=
        List.getElem?_set_self (by simpa using hklen)
      obtain ⟨hr2, hlen2, hfa2⟩ := ih hreach1 hk1 hpop
      rw [List.set_set] at hr2
      obtain ⟨hlen1, hfa1⟩ := pop_preserves_frames hpop1
      exact ⟨hr2, hlen2.trans hlen1, fun i => (hfa2 i).trans (hfa1 i)⟩

theorem release_cnt_mono : ∀ (N : Nat) (a : FrameAtor) (t : Nat) (b : FrameAtor),
    FrameAtor.sumCounts a ≤ N → a.release t = some b → ∀ i, b.cnt i ≤ a.cnt i := by
  intro N
  induction N with
  | zero =>
    intro a t b hN h
    rcases hget : a.frames[t]? with _ | ⟨f, c⟩
    · rw [FrameAtor.release_oob hget] at h; simp at h
    · have hc : c = 0 := by
        have h1 : a.cnt t = c := FrameAtor.cnt_eq_of_getElem hget
        have h2 := FrameAtor.cnt_le_sumCounts a t
        omega
      subst hc
      rw [FrameAtor.release_underflow hget] at h
      simp at h
  | succ N ih =>
    intro a t b hN h
    rcases hget : a.frames[t]? with _ | ⟨f, c⟩
    · rw [FrameAtor.release_oob hget] at h; simp at h
    · have htn : t < a.frames.length := (List.getElem?_eq_some.mp hget).1
      have hcnt_t : a.cnt t = c := FrameAtor.cnt_eq_of_getElem hget
      by_cases hc : c = 0
      · subst hc; rw [FrameAtor.release_underflow hget] at h; simp at h
      · by_cases hc1 : c - 1 = 0
        · rcases hp : f.previous with _ | p
          · rw [FrameAtor.release_zero_none hget hc hc1 hp] at h
            simp only [Option.some_inj] at h
            subst h
            intro i
            by_cases hit : i = t
            · subst hit
              rw [FrameAtor.cnt_of_frames_set_self rfl htn, hcnt_t]
              omega
            · rw [FrameAtor.cnt_of_frames_set_ne rfl (Ne.symm hit)]
          · rw [FrameAtor.release_zero_some hget hc hc1 hp] at h
            rcases hrel : FrameAtor.release ⟨a.frames.set t (f, c - 1), a.free⟩ p
              with _ | b0
            · rw [hrel] at h; simp at h
            · rw [hrel] at h
              simp only [Option.map_some', Option.some_inj] at h
              subst h
              have hsum : FrameAtor.sumCounts ⟨a.frames.set t (f, c - 1), a.free⟩ ≤ N := by
                have := FrameAtor.sum_map_set_lt a.frames t f c hget hc
                unfold FrameAtor.sumCounts at hN ⊢
                simp only at this ⊢
                omega
              have hmono0 := ih _ p b0 hsum hrel
              intro i
              have h1 : FrameAtor.cnt ⟨b0.frames, t :: b0.free⟩ i = b0.cnt i := rfl
              rw [h1]
              calc b0.cnt i ≤ _ := hmono0 i
                _ ≤ a.cnt i := by
                  by_cases hit : i = t
                  · subst hit
                    rw [FrameAtor.cnt_of_frames_set_self rfl htn, hcnt_t]
                    omega
                  · rw [FrameAtor.cnt_of_frames_set_ne rfl (Ne.symm hit)]
        · rw [FrameAtor.release_dec hget hc hc1] at h
          simp only [Option.some_inj] at h
          subst h
          intro i
          by_cases hit : i = t
          · subst hit
            rw [FrameAtor.cnt_of_frames_set_self rfl htn, hcnt_t]
            omega
          · rw [FrameAtor.cnt_of_frames_set_ne rfl (Ne.symm hit)]

theorem dump_dot_nodes_not_free {a : FrameAtor} {i : Nat} (hi : i ∈ a.free) :
    ∀ x ∈ a.dump_dot_nodes, x.1 ≠ i := by
  intro x hx
  rw [FrameAtor.dump_dot_nodes, List.mem_filterMap] at hx
  obtain ⟨p, hp, hxp⟩ := hx
  by_cases hc : a.free.contains p.1
  · simp [hc] at hxp
    exact absurd (by simpa using hc) hxp.1
  · simp only [if_neg hc, Option.some_inj] at hxp
    intro hcontra
    rw [← hxp] at hcontra
    simp only at hcontra
    rw [hcontra] at hc
    exact hc (by simpa using hi)

/-! ## Claims -/

/-- C7: popping a stack whose top is `none` is a no-op: the handle stays
empty and the very same arena is returned, so no frame table entry,
reference count or free-list entry changes. -/
theorem pop_of_empty_noop (a : FrameAtor) :
    TypeStack.pop ⟨none⟩ a = some (a, ⟨none⟩) := rfl

/-- C8: `deref` and `deref_mut` agree; they return `none` exactly when the
index is at or beyond the frame table's current length, and for every
in-bounds index they return the stored payload without any liveness check —
in particular an in-bounds index on the free list still yields its stale
frame rather than an absence result. -/
theorem deref_in_bounds_only (a : FrameAtor) (i : Nat) :
    (a.deref i = none ↔ a.frames.length ≤ i) ∧
    a.deref_mut i = a.deref i ∧
    (∀ h : i < a.frames.length, a.deref i = some (a.frames.get ⟨i, h⟩).1) ∧
    (i ∈ a.free → i < a.frames.length → ∃ f, a.deref i = some f) := by
  refine ⟨?_, rfl, ?_, ?_⟩
  · rw [FrameAtor.deref]
    constructor
    · intro h
      by_contra hlt
      push_neg at hlt
      obtain ⟨f, c, hget, -, -⟩ := FrameAtor.exists_getElem_of_lt hlt
      rw [hget] at h
      simp at h
    · intro h
      rw [List.getElem?_eq_none h]
      rfl
  · intro h
    rw [FrameAtor.deref, List.getElem?_eq_getElem h]
    simp [List.get_eq_getElem]
  · intro hfree hlt
    obtain ⟨f, c, hget, -, -⟩ := FrameAtor.exists_getElem_of_lt hlt
    exact ⟨f, by simp [FrameAtor.deref, hget]⟩

/-- Witness for C8 on a one-slot arena whose only slot is freed: the stale
payload is still returned in bounds, and index 1 is out of bounds. -/
theorem deref_in_bounds_only_witness :
    (⟨[(⟨DataType.Int, none⟩, 0)], [0]⟩ : FrameAtor).deref 0
      = some ⟨DataType.Int, none⟩ ∧
    ((⟨[(⟨DataType.Int, none⟩, 0)], [0]⟩ : FrameAtor).deref 1 = none ↔ (1 : Nat) ≤ 1) := by
  constructor
  · have h := (deref_in_bounds_only ⟨[(⟨DataType.Int, none⟩, 0)], [0]⟩ 0).2.2.1 (by decide)
    simpa using h
  · exact (deref_in_bounds_only ⟨[(⟨DataType.Int, none⟩, 0)], [0]⟩ 1).1

/-- C10: `acquire` panics exactly on an out-of-bounds index; on any
in-bounds index — including a freed slot of count 0 — it adds one to that
slot's count, changes nothing else, performs no liveness check, and a freed
slot so acquired gets a positive count while staying on the free list. -/
theorem acquire_increments_unchecked (a : FrameAtor) (i : Nat) :
    (a.acquire i = none ↔ a.frames.length ≤ i) ∧
    (i < a.frames.length → ∃ b, a.acquire i = some b ∧
      b.cnt i = a.cnt i + 1 ∧
      (∀ j, j ≠ i → b.cnt j = a.cnt j) ∧
      (∀ j, b.frameAt j = a.frameAt j) ∧
      b.free = a.free ∧
      b.frames.length = a.frames.length ∧
      (i ∈ a.free → i ∈ b.free ∧ b.cnt i ≠ 0)) := by
  constructor
  · rw [FrameAtor.acquire]
    constructor
    · intro h
      by_contra hlt
      push_neg at hlt
      obtain ⟨f, c, hget, -, -⟩ := FrameAtor.exists_getElem_of_lt hlt
      rw [hget] at h
      simp at h
    · intro h
      rw [List.getElem?_eq_none h]
  · intro hlt
    obtain ⟨f, c, hget, hcnt, -⟩ := FrameAtor.exists_getElem_of_lt hlt
    refine ⟨⟨a.frames.set i (f, c + 1), a.free⟩, by rw [FrameAtor.acquire, hget],
      ?_, ?_, ?_, rfl, by simp, ?_⟩
    · rw [FrameAtor.cnt_of_frames_set_self rfl hlt, hcnt]
    · exact fun j hj => FrameAtor.cnt_of_frames_set_ne rfl (Ne.symm hj)
    · exact FrameAtor.frameAt_of_frames_set_same hget rfl
    · intro hfree
      refine ⟨hfree, ?_⟩
      rw [FrameAtor.cnt_of_frames_set_self rfl hlt]
      omega

/-- Witness for C10: acquiring the freed slot 0 of a one-slot arena revives
its count to 1 while 0 stays on the free list; acquiring index 1 panics. -/
theorem acquire_increments_unchecked_witness :
    (FrameAtor.acquire ⟨[(⟨DataType.Int, none⟩, 0)], [0]⟩ 1 = none) ∧
    ∃ b, FrameAtor.acquire ⟨[(⟨DataType.Int, none⟩, 0)], [0]⟩ 0 = some b ∧
      b.cnt 0 = 1 ∧ 0 ∈ b.free := by
  constructor
  · exact (acquire_increments_unchecked ⟨[(⟨DataType.Int, none⟩, 0)], [0]⟩ 1).1.mpr
      (by decide)
  · obtain ⟨b, h1, h2, -, -, -, -, h7⟩ :=
      (acquire_increments_unchecked ⟨[(⟨DataType.Int, none⟩, 0)], [0]⟩ 0).2 (by decide)
    refine ⟨b, h1, ?_, (h7 (by decide)).1⟩
    rw [h2]
    decide

/-- C5: `alloc` stores the frame with reference count 1; it reuses the most
recently freed index when the free list is non-empty (its head — `release`
pushes freed indices there, so the head is the last freed), otherwise it
appends a new slot at the current table length; and on any arena whose
freed slots hold count 0 the returned index differs from every live index
(count non-zero and off the free list). -/
theorem alloc_fresh_spec (a : FrameAtor) (f : Frame) :
    (∀ r rest, a.free = r :: rest →
      a.alloc f = (⟨a.frames.set r (f, 1), rest⟩, r) ∧
      (r < a.frames.length → (a.alloc f).1.cnt r = 1)) ∧
    (a.free = [] →
      a.alloc f = (⟨a.frames ++ [(f, 1)], []⟩, a.frames.length) ∧
      (a.alloc f).1.cnt a.frames.length = 1) ∧
    ((∀ i ∈ a.free, a.cnt i = 0) →
      ∀ j, a.cnt j ≠ 0 → j ∉ a.free → (a.alloc f).2 ≠ j) := by
  refine ⟨?_, ?_, ?_⟩
  · intro r rest hfree
    have halloc : a.alloc f = (⟨a.frames.set r (f, 1), rest⟩, r) := by
      rw [FrameAtor.alloc, hfree]
    refine ⟨halloc, ?_⟩
    intro hlt
    rw [halloc]
    exact FrameAtor.cnt_of_frames_set_self rfl hlt
  · intro hfree
    have halloc : a.alloc f = (⟨a.frames ++ [(f, 1)], []⟩, a.frames.length) := by
      rw [FrameAtor.alloc, hfree]
    refine ⟨halloc, ?_⟩
    rw [halloc]
    show FrameAtor.cnt ⟨a.frames ++ [(f, 1)], []⟩ a.frames.length = 1
    simp [FrameAtor.cnt, List.getElem?_concat_length]
  · intro hfreecnt j hcnt hnotfree
    rcases hfree : a.free with _ | ⟨r, rest⟩
    · have halloc : a.alloc f = (⟨a.frames ++ [(f, 1)], []⟩, a.frames.length) := by
        rw [FrameAtor.alloc, hfree]
      rw [halloc]
      intro hcontra
      have heq : a.frames.length = j := hcontra
      rw [← heq] at hcnt
      exact hcnt (FrameAtor.cnt_oob le_rfl)
    · have halloc : a.alloc f = (⟨a.frames.set r (f, 1), rest⟩, r) := by
        rw [FrameAtor.alloc, hfree]
      rw [halloc]
      intro hcontra
      have heq : r = j := hcontra
      rw [← heq] at hnotfree
      rw [hfree] at hnotfree
      exact hnotfree (List.mem_cons_self _ _)

/-- Witness for C5: reuse of the freed head slot 0 with count reset to 1,
and a fresh allocation avoiding the live index 0. -/
theorem alloc_fresh_spec_witness :
    FrameAtor.alloc ⟨[(⟨DataType.Int, none⟩, 0), (⟨DataType.Ptr, none⟩, 1)], [0]⟩
        ⟨DataType.Bool, none⟩
      = (⟨[(⟨DataType.Bool, none⟩, 1), (⟨DataType.Ptr, none⟩, 1)], []⟩, 0) ∧
    (FrameAtor.alloc ⟨[(⟨DataType.Int, none⟩, 1)], []⟩ ⟨DataType.Bool, none⟩).2 ≠ 0 := by
  constructor
  · have h := ((alloc_fresh_spec
      ⟨[(⟨DataType.Int, none⟩, 0), (⟨DataType.Ptr, none⟩, 1)], [0]⟩
      ⟨DataType.Bool, none⟩).1 0 [] rfl).1
    rw [h]
    decide
  · exact (alloc_fresh_spec ⟨[(⟨DataType.Int, none⟩, 1)], []⟩ ⟨DataType.Bool, none⟩).2.2
      (by decide) 0 (by decide) (by decide)

/-- C3: clone returns a handle with the same top; with a non-empty in-bounds
top it bumps exactly that slot's count by one (to exactly 2 when it was 1),
leaves every other slot, the table length and the free list unchanged, and
the two handles afterwards dump identical top-to-bottom tag sequences (the
dump of the original is also unchanged by the clone); cloning an empty
handle returns an empty handle and the very same arena. -/
theorem clone_shares_top (a : FrameAtor) (s : TypeStack) :
    (s.top = none → s.clone a = some (a, ⟨none⟩)) ∧
    (∀ i, s.top = some i → i < a.frames.length →
      ∃ b, s.clone a = some (b, ⟨some i⟩) ∧
        b.cnt i = a.cnt i + 1 ∧
        (a.cnt i = 1 → b.cnt i = 2) ∧
        (∀ j, j ≠ i → b.cnt j = a.cnt j) ∧
        (∀ j, b.frameAt j = a.frameAt j) ∧
        b.free = a.free ∧
        b.frames.length = a.frames.length ∧
        TypeStack.dump ⟨some i⟩ b = s.dump b ∧
        s.dump b = s.dump a) := by
  constructor
  · intro htop
    rw [TypeStack.clone, htop]
  · intro i htop hlt
    obtain ⟨f, c, hget, hcnt, -⟩ := FrameAtor.exists_getElem_of_lt hlt
    have hacq : a.acquire i = some ⟨a.frames.set i (f, c + 1), a.free⟩ := by
      rw [FrameAtor.acquire, hget]
    refine ⟨⟨a.frames.set i (f, c + 1), a.free⟩, ?_, ?_, ?_, ?_, ?_, rfl, by simp,
      ?_, ?_⟩
    · rw [TypeStack.clone, htop]
      simp [hacq, htop]
    · rw [FrameAtor.cnt_of_frames_set_self rfl hlt, hcnt]
    · intro h1
      rw [FrameAtor.cnt_of_frames_set_self rfl hlt]
      omega
    · exact fun j hj => FrameAtor.cnt_of_frames_set_ne rfl (Ne.symm hj)
    · exact FrameAtor.frameAt_of_frames_set_same hget rfl
    · rw [TypeStack.dump, TypeStack.dump, htop]
    · exact dump_congr (by simp) (FrameAtor.frameAt_of_frames_set_same hget rfl) s

/-- Witness for C3: cloning a one-element stack gives a handle with the same
top and drives the shared frame's count from 1 to exactly 2. -/
theorem clone_shares_top_witness :
    ∃ b, TypeStack.clone ⟨some 0⟩ ⟨[(⟨DataType.Int, none⟩, 1)], []⟩
        = some (b, ⟨some 0⟩) ∧ b.cnt 0 = 2 := by
  obtain ⟨b, h1, -, h3, -⟩ :=
    (clone_shares_top ⟨[(⟨DataType.Int, none⟩, 1)], []⟩ ⟨some 0⟩).2 0 rfl (by decide)
  exact ⟨b, h1, h3 (by decide)⟩

/-- C1: from the empty arena and an empty stack, pushing Int, Ptr, Bool
yields a stack S whose dump is [Bool, Ptr, Int]; cloning S into T and
popping T twice leaves dump(T) = [Int] and dump(S) = [Bool, Ptr, Int], with
the Bool frame (slot 2) and the Ptr frame (slot 1) at reference count 1 and
the Int frame (slot 0) at reference count 2. -/
theorem scenario_push_clone_pop :
    TypeStack.push ⟨none⟩ ⟨[], []⟩ DataType.Int
      = (⟨[(⟨DataType.Int, none⟩, 1)], []⟩, ⟨some 0⟩) ∧
    TypeStack.push ⟨some 0⟩ ⟨[(⟨DataType.Int, none⟩, 1)], []⟩ DataType.Ptr
      = (⟨[(⟨DataType.Int, none⟩, 1), (⟨DataType.Ptr, some 0⟩, 1)], []⟩, ⟨some 1⟩) ∧
    TypeStack.push ⟨some 1⟩
        ⟨[(⟨DataType.Int, none⟩, 1), (⟨DataType.Ptr, some 0⟩, 1)], []⟩ DataType.Bool
      = (⟨[(⟨DataType.Int, none⟩, 1), (⟨DataType.Ptr, some 0⟩, 1),
          (⟨DataType.Bool, some 1⟩, 1)], []⟩, ⟨some 2⟩) ∧
    TypeStack.dump ⟨some 2⟩
        ⟨[(⟨DataType.Int, none⟩, 1), (⟨DataType.Ptr, some 0⟩, 1),
          (⟨DataType.Bool, some 1⟩, 1)], []⟩
      = some [DataType.Bool, DataType.Ptr, DataType.Int] ∧
    TypeStack.clone ⟨some 2⟩
        ⟨[(⟨DataType.Int, none⟩, 1), (⟨DataType.Ptr, some 0⟩, 1),
          (⟨DataType.Bool, some 1⟩, 1)], []⟩
      = some (⟨[(⟨DataType.Int, none⟩, 1), (⟨DataType.Ptr, some 0⟩, 1),
          (⟨DataType.Bool, some 1⟩, 2)], []⟩, ⟨some 2⟩) ∧
    popSteps 2 ⟨some 2⟩
        ⟨[(⟨DataType.Int, none⟩, 1), (⟨DataType.Ptr, some 0⟩, 1),
          (⟨DataType.Bool, some 1⟩, 2)], []⟩
      = some (⟨[(⟨DataType.Int, none⟩, 2), (⟨DataType.Ptr, some 0⟩, 1),
          (⟨DataType.Bool, some 1⟩, 1)], []⟩, ⟨some 0⟩) ∧
    TypeStack.dump ⟨some 0⟩
        ⟨[(⟨DataType.Int, none⟩, 2), (⟨DataType.Ptr, some 0⟩, 1),
          (⟨DataType.Bool, some 1⟩, 1)], []⟩
      = some [DataType.Int] ∧
    TypeStack.dump ⟨some 2⟩
        ⟨[(⟨DataType.Int, none⟩, 2), (⟨DataType.Ptr, some 0⟩, 1),
          (⟨DataType.Bool, some 1⟩, 1)], []⟩
      = some [DataType.Bool, DataType.Ptr, DataType.Int] ∧
    FrameAtor.frameAt ⟨[(⟨DataType.Int, none⟩, 2), (⟨DataType.Ptr, some 0⟩, 1),
          (⟨DataType.Bool, some 1⟩, 1)], []⟩ 2 = some ⟨DataType.Bool, some 1⟩ ∧
    FrameAtor.cnt ⟨[(⟨DataType.Int, none⟩, 2), (⟨DataType.Ptr, some 0⟩, 1),
          (⟨DataType.Bool, some 1⟩, 1)], []⟩ 2 = 1 ∧
    FrameAtor.frameAt ⟨[(⟨DataType.Int, none⟩, 2), (⟨DataType.Ptr, some 0⟩, 1),
          (⟨DataType.Bool, some 1⟩, 1)], []⟩ 1 = some ⟨DataType.Ptr, some 0⟩ ∧
    FrameAtor.cnt ⟨[(⟨DataType.Int, none⟩, 2), (⟨DataType.Ptr, some 0⟩, 1),
          (⟨DataType.Bool, some 1⟩, 1)], []⟩ 1 = 1 ∧
    FrameAtor.frameAt ⟨[(⟨DataType.Int, none⟩, 2), (⟨DataType.Ptr, some 0⟩, 1),
          (⟨DataType.Bool, some 1⟩, 1)], []⟩ 0 = some ⟨DataType.Int, none⟩ ∧
    FrameAtor.cnt ⟨[(⟨DataType.Int, none⟩, 2), (⟨DataType.Ptr, some 0⟩, 1),
          (⟨DataType.Bool, some 1⟩, 1)], []⟩ 0 = 2 := by
  have hpop1 : TypeStack.pop ⟨some 2⟩
      ⟨[(⟨DataType.Int, none⟩, 1), (⟨DataType.Ptr, some 0⟩, 1),
        (⟨DataType.Bool, some 1⟩, 2)], []⟩
      = some (⟨[(⟨DataType.Int, none⟩, 1), (⟨DataType.Ptr, some 0⟩, 2),
          (⟨DataType.Bool, some 1⟩, 1)], []⟩, ⟨some 1⟩) := by
    have h1 : (⟨some 2⟩ : TypeStack).top = some 2 := rfl
    have h2 : FrameAtor.deref_mut
        ⟨[(⟨DataType.Int, none⟩, 1), (⟨DataType.Ptr, some 0⟩, 1),
          (⟨DataType.Bool, some 1⟩, 2)], []⟩ 2
        = some ⟨DataType.Bool, some 1⟩ := rfl
    have h3 : (⟨DataType.Bool, some 1⟩ : Frame).previous = some 1 := rfl
    rw [TypeStack.pop_top_some_prev_some h1 h2 h3]
    have h4 : FrameAtor.acquire
        ⟨[(⟨DataType.Int, none⟩, 1), (⟨DataType.Ptr, some 0⟩, 1),
          (⟨DataType.Bool, some 1⟩, 2)], []⟩ 1
        = some ⟨[(⟨DataType.Int, none⟩, 1), (⟨DataType.Ptr, some 0⟩, 2),
          (⟨DataType.Bool, some 1⟩, 2)], []⟩ := rfl
    rw [h4]
    have h5 : (⟨[(⟨DataType.Int, none⟩, 1), (⟨DataType.Ptr, some 0⟩, 2),
        (⟨DataType.Bool, some 1⟩, 2)], []⟩ : FrameAtor).frames[2]?
        = some (⟨DataType.Bool, some 1⟩, 2) := rfl
    show (FrameAtor.release ⟨[(⟨DataType.Int, none⟩, 1), (⟨DataType.Ptr, some 0⟩, 2),
        (⟨DataType.Bool, some 1⟩, 2)], []⟩ 2).map _ = _
    rw [FrameAtor.release_dec h5 (by decide) (by decide)]
    rfl
  have hpop2 : TypeStack.pop ⟨some 1⟩
      ⟨[(⟨DataType.Int, none⟩, 1), (⟨DataType.Ptr, some 0⟩, 2),
        (⟨DataType.Bool, some 1⟩, 1)], []⟩
      = some (⟨[(⟨DataType.Int, none⟩, 2), (⟨DataType.Ptr, some 0⟩, 1),
          (⟨DataType.Bool, some 1⟩, 1)], []⟩, ⟨some 0⟩) := by
    have h1 : (⟨some 1⟩ : TypeStack).top = some 1 := rfl
    have h2 : FrameAtor.deref_mut
        ⟨[(⟨DataType.Int, none⟩, 1), (⟨DataType.Ptr, some 0⟩, 2),
          (⟨DataType.Bool, some 1⟩, 1)], []⟩ 1
        = some ⟨DataType.Ptr, some 0⟩ := rfl
    have h3 : (⟨DataType.Ptr, some 0⟩ : Frame).previous = some 0 := rfl
    rw [TypeStack.pop_top_some_prev_some h1 h2 h3]
    have h4 : FrameAtor.acquire
        ⟨[(⟨DataType.Int, none⟩, 1), (⟨DataType.Ptr, some 0⟩, 2),
          (⟨DataType.Bool, some 1⟩, 1)], []⟩ 0
        = some ⟨[(⟨DataType.Int, none⟩, 2), (⟨DataType.Ptr, some 0⟩, 2),
          (⟨DataType.Bool, some 1⟩, 1)], []⟩ := rfl
    rw [h4]
    have h5 : (⟨[(⟨DataType.Int, none⟩, 2), (⟨DataType.Ptr, some 0⟩, 2),
        (⟨DataType.Bool, some 1⟩, 1)], []⟩ : FrameAtor).frames[1]?
        = some (⟨DataType.Ptr, some 0⟩, 2) := rfl
    show (FrameAtor.release ⟨[(⟨DataType.Int, none⟩, 2), (⟨DataType.Ptr, some 0⟩, 2),
        (⟨DataType.Bool, some 1⟩, 1)], []⟩ 1).map _ = _
    rw [FrameAtor.release_dec h5 (by decide) (by decide)]
    rfl
  refine ⟨rfl, rfl, rfl, rfl, rfl, ?_, rfl, rfl, rfl, rfl, rfl, rfl, rfl, rfl⟩
  show (TypeStack.pop ⟨some 2⟩ _).bind _ = _
  rw [hpop1]
  simp only [Option.some_bind]
  show (TypeStack.pop ⟨some 1⟩ _).bind _ = _
  rw [hpop2]
  rfl

/-- C2: pops on one handle never disturb another handle sharing a suffix:
after any number of pops that take the first handle down to empty, the
second handle's dump and back-link chain are unchanged, and every slot on
that chain still has a positive count and is off the free list — pop
acquires the new top before releasing the old one, so a frame reachable
only through the popped frame is never freed while still reachable from
the surviving handle. -/
theorem pops_never_disturb_other_handle {a : FrameAtor} {hs : List TypeStack}
    {k j : Nat} {s t : TypeStack} (hreach : Reachable ⟨a, hs⟩)
    (hk : hs[k]? = some s) (hj : hs[j]? = some t) (hjk : j ≠ k)
    {m : Nat} {a' : FrameAtor} {s' : TypeStack}
    (hpops : popSteps m s a = some (a', s')) (hempty : s'.top = none) :
    t.dump a' = t.dump a ∧
    t.chain a' = t.chain a ∧
    ∃ l, t.chain a' = some l ∧ ∀ i ∈ l, a'.cnt i ≠ 0 ∧ i ∉ a'.free := by
  obtain ⟨hreach', hlen, hfa⟩ := popSteps_spec m hreach hk hpops
  refine ⟨dump_congr hlen hfa t, chain_congr hlen hfa t, ?_⟩
  have hwf' := reachable_wf hreach'
  have hj' : (hs.set k s')[j]? = some t := by
    rw [List.getElem?_set_ne (Ne.symm hjk)]
    exact hj
  rcases htop : t.top with _ | t0
  · refine ⟨[], ?_, by simp⟩
    rw [TypeStack.chain, htop]
    simp [chainF]
  · obtain ⟨l, hl, -, -, hmem, -⟩ := chain_spec_of_wf hwf' hj' htop
    exact ⟨l, hl, fun i hi => ⟨(hmem i hi).2.1, (hmem i hi).2.2⟩⟩

/-- Witness for C2: two handles share the single Int frame; fully popping
one leaves the other's dump unchanged and its chain live. -/
theorem pops_never_disturb_other_handle_witness :
    TypeStack.dump ⟨some 0⟩ ⟨[(⟨DataType.Int, none⟩, 1)], []⟩
      = TypeStack.dump ⟨some 0⟩ ⟨[(⟨DataType.Int, none⟩, 2)], []⟩ ∧
    ∃ l, TypeStack.chain ⟨some 0⟩ ⟨[(⟨DataType.Int, none⟩, 1)], []⟩ = some l ∧
      ∀ i ∈ l, (⟨[(⟨DataType.Int, none⟩, 1)], []⟩ : FrameAtor).cnt i ≠ 0 ∧
        i ∉ (⟨[(⟨DataType.Int, none⟩, 1)], []⟩ : FrameAtor).free := by
  have hreach : Reachable ⟨⟨[(⟨DataType.Int, none⟩, 2)], []⟩, [⟨some 0⟩, ⟨some 0⟩]⟩ :=
    Reachable.step (Op.clone 0)
      (Reachable.step (Op.push 0 DataType.Int)
        (Reachable.step Op.newStack Reachable.init rfl) rfl) rfl
  have hpops : popSteps 1 ⟨some 0⟩ ⟨[(⟨DataType.Int, none⟩, 2)], []⟩
      = some (⟨[(⟨DataType.Int, none⟩, 1)], []⟩, ⟨none⟩) := by
    have h1 : (⟨some 0⟩ : TypeStack).top = some 0 := rfl
    have h2 : FrameAtor.deref_mut ⟨[(⟨DataType.Int, none⟩, 2)], []⟩ 0
        = some ⟨DataType.Int, none⟩ := rfl
    have h3 : (⟨DataType.Int, none⟩ : Frame).previous = none := rfl
    have h5 : (⟨[(⟨DataType.Int, none⟩, 2)], []⟩ : FrameAtor).frames[0]?
        = some (⟨DataType.Int, none⟩, 2) := rfl
    show (TypeStack.pop ⟨some 0⟩ ⟨[(⟨DataType.Int, none⟩, 2)], []⟩).bind _ = _
    rw [TypeStack.pop_top_some_prev_none h1 h2 h3]
    rw [FrameAtor.release_dec h5 (by decide) (by decide)]
    rfl
  have hk : ([⟨some 0⟩, ⟨some 0⟩] : List TypeStack)[0]? = some ⟨some 0⟩ := rfl
  have hj : ([⟨some 0⟩, ⟨some 0⟩] : List TypeStack)[1]? = some ⟨some 0⟩ := rfl
  obtain ⟨h1, h2, h3⟩ :=
    pops_never_disturb_other_handle hreach hk hj (by decide) hpops rfl
  exact ⟨h1, h3⟩

/-- C4: on any slot with a positive count, `release` decrements that count
by one; when the count reaches zero the back-link, if present, is
recursively released first and the index is then pushed onto the free list;
and in any reachable state every in-bounds index of count 0 does not appear
among the `dump_dot` nodes and sits on the free list, available for reuse
by a later `alloc`. -/
theorem release_decrement_cascade_reclaim {c : Config} (hreach : Reachable c)
    {t : Nat} (hct : c.ator.cnt t ≠ 0) :
    (∀ b, c.ator.release t = some b → b.cnt t = c.ator.cnt t - 1) ∧
    (∃ f, c.ator.frames[t]? = some (f, c.ator.cnt t) ∧
      (c.ator.cnt t - 1 ≠ 0 →
        c.ator.release t
          = some ⟨c.ator.frames.set t (f, c.ator.cnt t - 1), c.ator.free⟩) ∧
      (c.ator.cnt t - 1 = 0 → f.previous = none →
        c.ator.release t
          = some ⟨c.ator.frames.set t (f, c.ator.cnt t - 1), t :: c.ator.free⟩) ∧
      (∀ p, c.ator.cnt t - 1 = 0 → f.previous = some p →
        c.ator.release t
          = (FrameAtor.release
              ⟨c.ator.frames.set t (f, c.ator.cnt t - 1), c.ator.free⟩ p).map
              (fun b => ⟨b.frames, t :: b.free⟩))) ∧
    (∀ i, i < c.ator.frames.length → c.ator.cnt i = 0 →
      (∀ x ∈ FrameAtor.dump_dot_nodes c.ator, x.1 ≠ i) ∧ i ∈ c.ator.free) := by
  have hwf := reachable_wf hreach
  have htn : t < c.ator.frames.length := FrameAtor.lt_of_cnt_ne_zero hct
  obtain ⟨f, cc, hget, hcnt, -⟩ := FrameAtor.exists_getElem_of_lt htn
  refine ⟨?_, ⟨f, by rw [hcnt]; exact hget, ?_, ?_, ?_⟩, ?_⟩
  · intro b hrel
    by_cases hc1 : cc - 1 = 0
    · rcases hp : f.previous with _ | p
      · rw [FrameAtor.release_zero_none hget (by omega) hc1 hp] at hrel
        simp only [Option.some_inj] at hrel
        subst hrel
        rw [FrameAtor.cnt_of_frames_set_self rfl htn, hcnt]
      · rw [FrameAtor.release_zero_some hget (by omega) hc1 hp] at hrel
        rcases hrel0 : FrameAtor.release
            ⟨c.ator.frames.set t (f, cc - 1), c.ator.free⟩ p with _ | b0
        · rw [hrel0] at hrel; simp at hrel
        · rw [hrel0] at hrel
          simp only [Option.map_some', Option.some_inj] at hrel
          subst hrel
          have hmono := release_cnt_mono
            (FrameAtor.sumCounts ⟨c.ator.frames.set t (f, cc - 1), c.ator.free⟩)
            _ p b0 le_rfl hrel0 t
          have hz : FrameAtor.cnt ⟨c.ator.frames.set t (f, cc - 1), c.ator.free⟩ t
              = 0 := by
            rw [FrameAtor.cnt_of_frames_set_self rfl htn]
            omega
          have hb : FrameAtor.cnt ⟨b0.frames, t :: b0.free⟩ t = b0.cnt t := rfl
          rw [hb]
          omega
    · rw [FrameAtor.release_dec hget (by omega) hc1] at hrel
      simp only [Option.some_inj] at hrel
      subst hrel
      rw [FrameAtor.cnt_of_frames_set_self rfl htn, hcnt]
  · intro h1
    rw [hcnt]
    exact FrameAtor.release_dec hget (by omega) (by omega)
  · intro h1 hp
    rw [hcnt]
    exact FrameAtor.release_zero_none hget (by omega) (by omega) hp
  · intro p h1 hp
    rw [hcnt]
    exact FrameAtor.release_zero_some hget (by omega) (by omega) hp
  · intro i hi hci
    exact ⟨dump_dot_nodes_not_free (hwf.2 i hi hci), hwf.2 i hi hci⟩

/-- Witness for C4: releasing the only holder of the single Int frame of a
reachable one-frame state drops its count to 0 and frees slot 0. -/
theorem release_decrement_cascade_reclaim_witness :
    FrameAtor.release ⟨[(⟨DataType.Int, none⟩, 1)], []⟩ 0
      = some ⟨[(⟨DataType.Int, none⟩, 0)], [0]⟩ := by
  have hreach : Reachable ⟨⟨[(⟨DataType.Int, none⟩, 1)], []⟩, [⟨some 0⟩]⟩ :=
    Reachable.step (Op.push 0 DataType.Int)
      (Reachable.step Op.newStack Reachable.init rfl) rfl
  obtain ⟨h1, ⟨f, hget, h3, h4, h5⟩, h6⟩ :=
    release_decrement_cascade_reclaim hreach
      (show (⟨[(⟨DataType.Int, none⟩, 1)], []⟩ : FrameAtor).cnt 0 ≠ 0 by decide)
  have hf : f = ⟨DataType.Int, none⟩ := by
    rw [show (⟨[(⟨DataType.Int, none⟩, 1)], []⟩ : FrameAtor).frames[0]?
        = some (⟨DataType.Int, none⟩, 1) from rfl] at hget
    simp only [Option.some_inj, Prod.mk.injEq] at hget
    exact hget.1.symm
  have heq := h4 (by decide) (by rw [hf])
  rw [hf] at heq
  exact heq.trans (by decide)

/-- C6: every reachable state is well-formed, every public operation
preserves this, and every slot that is some handle's top or reachable from
it via back-links has count at least 1 and is not on the free list: no live
stack ever references a free index. -/
theorem reachable_no_free_reference {c : Config} (hreach : Reachable c) :
    WF c ∧
    (∀ op c', applyOp c op = some c' → WF c') ∧
    (∀ (k : Nat) (s : TypeStack), c.handles[k]? = some s →
      ∃ l, s.chain c.ator = some l ∧
        (∀ i, s.top = some i → i ∈ l) ∧
        ∀ i ∈ l, 1 ≤ c.ator.cnt i ∧ i ∉ c.ator.free) := by
  obtain ⟨a, hs⟩ := c
  have hwf := reachable_wf hreach
  refine ⟨hwf, fun op c' h => wf_step hwf h, ?_⟩
  intro k s hk
  rcases htop : s.top with _ | t
  · refine ⟨[], ?_, ?_, by simp⟩
    · rw [TypeStack.chain, htop]
      simp [chainF]
    · intro i hi
      cases hi
  · obtain ⟨l, hl, hhead, -, hmem, -⟩ := chain_spec_of_wf hwf hk htop
    refine ⟨l, hl, ?_, ?_⟩
    · intro i hi
      cases hi
      obtain ⟨ys, rfl⟩ := List.head?_eq_some_iff.mp hhead
      exact List.mem_cons_self _ _
    · intro i hi
      obtain ⟨-, h2, h3⟩ := hmem i hi
      refine ⟨?_, h3⟩
      show 1 ≤ a.cnt i
      omega

/-- Witness for C6 on a reachable one-frame, one-handle state. -/
theorem reachable_no_free_reference_witness :
    WF ⟨⟨[(⟨DataType.Int, none⟩, 1)], []⟩, [⟨some 0⟩]⟩ ∧
    ∃ l, TypeStack.chain ⟨some 0⟩ ⟨[(⟨DataType.Int, none⟩, 1)], []⟩ = some l ∧
      ∀ i ∈ l, 1 ≤ FrameAtor.cnt ⟨[(⟨DataType.Int, none⟩, 1)], []⟩ i ∧
        i ∉ (⟨[(⟨DataType.Int, none⟩, 1)], []⟩ : FrameAtor).free := by
  have hreach : Reachable ⟨⟨[(⟨DataType.Int, none⟩, 1)], []⟩, [⟨some 0⟩]⟩ :=
    Reachable.step (Op.push 0 DataType.Int)
      (Reachable.step Op.newStack Reachable.init rfl) rfl
  obtain ⟨h1, h2, h3⟩ := reachable_no_free_reference hreach
  obtain ⟨l, hl, -, hmem⟩ := h3 0 ⟨some 0⟩ rfl
  exact ⟨h1, l, hl, hmem⟩

/-- C9: in every reachable state the graph of in-use frames and back-links
is acyclic — a rank strictly decreases along every back-link — and walking
back-links from any handle's top visits pairwise-distinct slots and ends,
after finitely many steps, at a frame with no back-link. -/
theorem backlink_graph_acyclic {c : Config} (hreach : Reachable c) :
    (∃ rk : Nat → Nat, ∀ j, j < c.ator.frames.length → c.ator.cnt j ≠ 0 →
      ∀ p, c.ator.prevAt j = some p → rk p < rk j) ∧
    (∀ (k : Nat) (s : TypeStack) (t : Nat), c.handles[k]? = some s →
      s.top = some t →
      ∃ l, s.chain c.ator = some l ∧ l.Nodup ∧ l.head? = some t ∧
        ∃ q, l.getLast? = some q ∧ c.ator.prevAt q = none) := by
  obtain ⟨a, hs⟩ := c
  have hwf := reachable_wf hreach
  constructor
  · obtain ⟨rk, hrk⟩ := hwf.arena.depth
    refine ⟨rk, ?_⟩
    intro j hj hcj p hp
    have := (hrk j hj hcj).2 p hp
    omega
  · intro k s t hk htop
    obtain ⟨l, hl, hhead, hnodup, -, hlast⟩ := chain_spec_of_wf hwf hk htop
    exact ⟨l, hl, hnodup, hhead, hlast⟩

/-- Witness for C9 on a reachable two-frame chain. -/
theorem backlink_graph_acyclic_witness :
    ∃ l, TypeStack.chain ⟨some 1⟩
        ⟨[(⟨DataType.Int, none⟩, 1), (⟨DataType.Ptr, some 0⟩, 1)], []⟩ = some l ∧
      l.Nodup ∧ l.head? = some 1 ∧
      ∃ q, l.getLast? = some q ∧
        FrameAtor.prevAt
          ⟨[(⟨DataType.Int, none⟩, 1), (⟨DataType.Ptr, some 0⟩, 1)], []⟩ q = none := by
  have hreach : Reachable
      ⟨⟨[(⟨DataType.Int, none⟩, 1), (⟨DataType.Ptr, some 0⟩, 1)], []⟩, [⟨some 1⟩]⟩ :=
    Reachable.step (Op.push 0 DataType.Ptr)
      (Reachable.step (Op.push 0 DataType.Int)
        (Reachable.step Op.newStack Reachable.init rfl) rfl) rfl
  exact (backlink_graph_acyclic hreach).2 0 ⟨some 1⟩ 1 rfl rfl
